import Mathlib

/-!
# Verification of the Impala RLE / bit-packed hybrid codec

This file formalises the hybrid run-length / bit-packed integer codec of
`be/src/util/rle-encoding.h` (`RleEncoder`, `RleBatchDecoder`) together with the
ULEB128 / bit-packing substrate of `be/src/util/bit-stream-utils.h`.  The
repository snapshot contains only the test suite `be/src/util/rle-test.cc` for
this component, so the encoder and decoder themselves are modelled from the
specification and cross-checked against the byte-exact vectors asserted by the
tests.

All machine integers are modelled as `Nat` with explicit `% 2 ^ w` where
overflow matters; byte buffers are `List Nat` whose entries are below 256.
-/

namespace Rle

/-! ## Byte and bit primitives (modelled from the spec, §4.1 Bit I/O) -/

/-- Little-endian value of a byte list: byte 0 is least significant.
Modelled from the spec: the repeated-run value payload is little-endian
(`bit-stream-utils.h` `GetBytes`), the file itself is absent from the
snapshot. -/
def bytesToNatLE : List Nat → Nat
  | [] => 0
  | b :: bs => b % 256 + 256 * bytesToNatLE bs

/-- The `len` little-endian base-256 digits of `n`.
Modelled from the spec: `put_value`/`PutAligned` write values little-endian. -/
def natToBytesLE : Nat → Nat → List Nat
  | 0, _ => []
  | len + 1, n => n % 256 :: natToBytesLE len (n / 256)

/-- Bit-pack a list of `w`-bit values LSB-first into a single natural number:
value 0 occupies the lowest `w` bits.  Modelled from the spec (§4.1): packing
order is LSB-first within each byte, values cross byte boundaries freely. -/
def packNat (w : Nat) : List Nat → Nat
  | [] => 0
  | v :: vs => v % 2 ^ w + 2 ^ w * packNat w vs

/-- ULEB128 encoding, fuel-bounded: 7 payload bits per byte, high bit signals
continuation.  The fuel strictly dominates the number of digit steps. -/
def ulebEncodeAux : Nat → Nat → List Nat
  | 0, _ => []
  | fuel + 1, n => if n < 128 then [n] else (n % 128 + 128) :: ulebEncodeAux fuel (n / 128)

/-- ULEB128 encoding: 7 payload bits per byte, high bit signals continuation.
Modelled from the spec: `put_uleb128` of `bit-stream-utils.h`. -/
def ulebEncode (n : Nat) : List Nat := ulebEncodeAux (n + 1) n

theorem ulebEncodeAux_fuel : ∀ f₁ f₂ n : Nat, n < f₁ → n < f₂ →
    ulebEncodeAux f₁ n = ulebEncodeAux f₂ n := by
  intro f₁
  induction f₁ with
  | zero => intro f₂ n h1 _; omega
  | succ f ih =>
    intro f₂ n h1 h2
    cases f₂ with
    | zero => omega
    | succ g =>
      simp only [ulebEncodeAux]
      by_cases hn : n < 128
      · simp [hn]
      · simp only [if_neg hn]
        have hdiv : n / 128 < n := Nat.div_lt_self (by omega) (by norm_num)
        rw [ih g (n / 128) (by omega) (by omega)]

/-- Bounded ULEB128 decoding: reads at most `maxB` bytes, returns the decoded
value and the remaining bytes.  Modelled from the spec: `get_uleb128 -> u32 |
end`; a continuation chain exceeding `ceil(32/7) = 5` bytes is an error. -/
def ulebDecode : Nat → List Nat → Option (Nat × List Nat)
  | 0, _ => none
  | _ + 1, [] => none
  | maxB + 1, b :: bs =>
    if b % 256 < 128 then some (b % 256, bs)
    else
      match ulebDecode maxB bs with
      | some (v, rest) => some (b % 128 + 128 * v, rest)
      | none => none

@[simp] theorem bytesToNatLE_nil : bytesToNatLE [] = 0 := rfl

@[simp] theorem bytesToNatLE_cons (b : Nat) (bs : List Nat) :
    bytesToNatLE (b :: bs) = b % 256 + 256 * bytesToNatLE bs := rfl

@[simp] theorem natToBytesLE_zero (n : Nat) : natToBytesLE 0 n = [] := rfl

@[simp] theorem natToBytesLE_succ (len n : Nat) :
    natToBytesLE (len + 1) n = n % 256 :: natToBytesLE len (n / 256) := rfl

@[simp] theorem length_natToBytesLE (len n : Nat) :
    (natToBytesLE len n).length = len := by
  induction len generalizing n with
  | zero => rfl
  | succ k ih => simp [natToBytesLE, ih]

theorem bytesToNatLE_natToBytesLE (len n : Nat) :
    bytesToNatLE (natToBytesLE len n) = n % 256 ^ len := by
  induction len generalizing n with
  | zero => simp [Nat.mod_one]
  | succ k ih =>
    simp only [natToBytesLE_succ, bytesToNatLE_cons, ih,
      Nat.mod_mod_of_dvd n (dvd_refl 256)]
    rw [pow_succ, mul_comm (256 ^ k) 256, Nat.mod_mul]

theorem natToBytesLE_lt (len n : Nat) : ∀ b ∈ natToBytesLE len n, b < 256 := by
  induction len generalizing n with
  | zero => simp
  | succ k ih =>
    intro b hb
    simp only [natToBytesLE_succ, List.mem_cons] at hb
    rcases hb with h | h
    · subst h; exact Nat.mod_lt _ (by norm_num)
    · exact ih _ _ h

@[simp] theorem packNat_nil (w : Nat) : packNat w [] = 0 := rfl

@[simp] theorem packNat_cons (w v : Nat) (vs : List Nat) :
    packNat w (v :: vs) = v % 2 ^ w + 2 ^ w * packNat w vs := rfl

theorem packNat_lt (w : Nat) (vs : List Nat) :
    packNat w vs < 2 ^ (w * vs.length) := by
  induction vs with
  | nil => simp
  | cons v vs ih =>
    have hv : v % 2 ^ w < 2 ^ w := Nat.mod_lt _ (Nat.pos_pow_of_pos w (by norm_num))
    simp only [packNat_cons, List.length_cons]
    calc v % 2 ^ w + 2 ^ w * packNat w vs
        ≤ (2 ^ w - 1) + 2 ^ w * (2 ^ (w * vs.length) - 1) := by
          have := Nat.pos_pow_of_pos (w * vs.length) (show 0 < 2 by norm_num)
          have h2 : packNat w vs ≤ 2 ^ (w * vs.length) - 1 := by omega
          exact Nat.add_le_add (by omega) (Nat.mul_le_mul_left _ h2)
      _ < 2 ^ (w * (vs.length + 1)) := by
          have hp : 0 < 2 ^ w := Nat.pos_pow_of_pos w (by norm_num)
          have hq : 0 < 2 ^ (w * vs.length) :=
            Nat.pos_pow_of_pos _ (by norm_num)
          have : 2 ^ (w * (vs.length + 1)) = 2 ^ w * 2 ^ (w * vs.length) := by
            rw [← pow_add]; ring_nf
          rw [this, Nat.mul_sub_one]
          have := Nat.le_mul_of_pos_right (2 ^ w) hq
          omega

/-- Extracting the `i`-th `w`-bit field of a packed value recovers the value. -/
theorem packNat_extract (w : Nat) (vs : List Nat) (i : Nat) (h : i < vs.length) :
    packNat w vs / 2 ^ (w * i) % 2 ^ w = vs.get ⟨i, h⟩ % 2 ^ w := by
  induction vs generalizing i with
  | nil => simp at h
  | cons v vs ih =>
    cases i with
    | zero =>
      simp only [Nat.mul_zero, pow_zero, Nat.div_one, packNat_cons, List.get]
      rw [Nat.add_mul_mod_self_left, Nat.mod_mod_of_dvd v (dvd_refl (2 ^ w))]
    | succ j =>
      have hj : j < vs.length := by simpa using h
      have hv : v % 2 ^ w < 2 ^ w := Nat.mod_lt _ (Nat.pos_pow_of_pos w (by norm_num))
      have hdiv : packNat w (v :: vs) / 2 ^ w = packNat w vs := by
        simp only [packNat_cons]
        rw [Nat.add_mul_div_left _ _ (Nat.pos_pow_of_pos w (by norm_num)),
          Nat.div_eq_of_lt hv]
        omega
      have hsplit : 2 ^ (w * (j + 1)) = 2 ^ w * 2 ^ (w * j) := by
        rw [← pow_add]; ring_nf
      rw [hsplit, ← Nat.div_div_eq_div_mul, hdiv, ih j hj]
      rfl

/-! ### ULEB128 round trip -/

theorem ulebEncode_small (n : Nat) (h : n < 128) : ulebEncode n = [n] := by
  unfold ulebEncode
  simp only [ulebEncodeAux]
  simp [h]

theorem ulebEncode_large (n : Nat) (h : ¬ n < 128) :
    ulebEncode n = (n % 128 + 128) :: ulebEncode (n / 128) := by
  have hdiv : n / 128 < n := Nat.div_lt_self (by omega) (by norm_num)
  show ulebEncodeAux (n + 1) n = (n % 128 + 128) :: ulebEncodeAux (n / 128 + 1) (n / 128)
  rw [show ulebEncodeAux (n + 1) n =
    if n < 128 then [n] else (n % 128 + 128) :: ulebEncodeAux n (n / 128) from rfl]
  rw [if_neg h, ulebEncodeAux_fuel n (n / 128 + 1) (n / 128) (by omega) (by omega)]

theorem ulebDecode_ulebEncode (k : Nat) :
    ∀ n, n < 128 ^ (k + 1) → ∀ rest,
      ulebDecode (k + 1) (ulebEncode n ++ rest) = some (n, rest) := by
  induction k with
  | zero =>
    intro n hn rest
    have h128 : n < 128 := by simpa using hn
    rw [ulebEncode_small n h128]
    simp only [List.cons_append, List.nil_append, ulebDecode]
    rw [Nat.mod_eq_of_lt (show n < 256 by omega), if_pos h128]
    simp
  | succ k ih =>
    intro n hn rest
    by_cases h : n < 128
    · rw [ulebEncode_small n h]
      simp only [List.cons_append, List.nil_append, ulebDecode]
      rw [Nat.mod_eq_of_lt (show n < 256 by omega), if_pos h]
      simp
    · rw [ulebEncode_large n h]
      have hb : (n % 128 + 128) % 256 = n % 128 + 128 := by
        have := Nat.mod_lt n (show 0 < 128 by norm_num)
        omega
      have hge : ¬ (n % 128 + 128) % 256 < 128 := by omega
      have hdiv : n / 128 < 128 ^ (k + 1) := by
        rw [Nat.div_lt_iff_lt_mul (show 0 < 128 by norm_num)]
        calc n < 128 ^ (k + 1 + 1) := hn
          _ = 128 ^ (k + 1) * 128 := by rw [pow_succ]
      have hrec := ih (n / 128) hdiv rest
      simp only [List.cons_append, ulebDecode, List.append_eq]
      rw [if_neg hge, hrec]
      simp only [Option.some.injEq, Prod.mk.injEq]
      refine ⟨?_, trivial⟩
      rw [Nat.add_mod_right, Nat.mod_mod_of_dvd n (dvd_refl 128)]
      exact Nat.mod_add_div n 128

theorem ulebEncode_ne_nil (n : Nat) : ulebEncode n ≠ [] := by
  by_cases h : n < 128
  · rw [ulebEncode_small n h]; simp
  · rw [ulebEncode_large n h]; simp

/-! ## Runs and the wire format (spec §3 data model, §6 wire format) -/

/-- A run, the stream's unit of framing: either a repeated run `(count, value)`
or a literal run of bit-packed values (the list has `8·G` elements for `G`
groups).  Modelled from the spec §3. -/
inductive Run where
  | rep (count : Nat) (v : Nat)
  | lit (vals : List Nat)
deriving DecidableEq

/-- The value sequence denoted by a run. -/
def runValues : Run → List Nat
  | .rep n v => List.replicate n v
  | .lit l => l

/-- The value sequence denoted by a run list. -/
def runsValues (rs : List Run) : List Nat := (rs.map runValues).flatten

@[simp] theorem runsValues_nil : runsValues [] = [] := rfl

@[simp] theorem runsValues_cons (r : Run) (rs : List Run) :
    runsValues (r :: rs) = runValues r ++ runsValues rs := rfl

/-- Number of bytes of a repeated-run value payload: `ceil(W/8)`. -/
def byteWidth (w : Nat) : Nat := (w + 7) / 8

/-- Payload bytes of a literal run: `G·W` bytes of LSB-first bit-packed
values (`G = |l|/8` groups). -/
def litPayload (w : Nat) (l : List Nat) : List Nat :=
  natToBytesLE (l.length / 8 * w) (packNat w l)

/-- Wire encoding of one run: ULEB128 header `(count_or_groups << 1) |
variant_bit` followed by the payload.  Modelled from the spec §6. -/
def serializeRun (w : Nat) : Run → List Nat
  | .rep n v => ulebEncode (2 * n) ++ natToBytesLE (byteWidth w) v
  | .lit l => ulebEncode (2 * (l.length / 8) + 1) ++ litPayload w l

/-- Wire encoding of a run sequence (a stream is a concatenation of runs). -/
def serialize (w : Nat) (rs : List Run) : List Nat :=
  (rs.map (serializeRun w)).flatten

@[simp] theorem serialize_nil (w : Nat) : serialize w [] = [] := rfl

@[simp] theorem serialize_cons (w : Nat) (r : Run) (rs : List Run) :
    serialize w (r :: rs) = serializeRun w r ++ serialize w rs := rfl

/-! ## The decoder: `RleBatchDecoder` (spec §4.3)

Modelled from the spec: `rle-encoding.h` is absent from the snapshot; the
streaming model below (one-run look-ahead, lazy header parsing, sticky
EXHAUSTED on malformed headers) follows §4.3 and §7 of the spec and the
behaviour asserted by `rle-test.cc`. -/

/-- The decoder's one-run look-ahead state. -/
inductive RunSt where
  /-- Look-ahead empty: the next header has not been parsed yet. -/
  | pend
  /-- Sticky terminal state: end of buffer or malformed header. -/
  | exhausted
  /-- A repeated run with `rem` values of `v` remaining. -/
  | rep (rem : Nat) (v : Nat)
  /-- A literal run: `rem` values remaining, `bitpos` bits of the payload
  already consumed. -/
  | lit (rem : Nat) (payload : List Nat) (bitpos : Nat)
deriving DecidableEq

/-- Decoder state: bit width, remaining buffer (the current literal payload
excluded) and the current run. -/
structure Dec where
  w : Nat
  bytes : List Nat
  run : RunSt
deriving DecidableEq

/-- `RleBatchDecoder(buffer, buffer_len, bit_width)` construction: borrows the
buffer, look-ahead empty.  `Reset` is equivalent to a fresh construction. -/
def mkDec (buffer : List Nat) (w : Nat) : Dec := ⟨w, buffer, .pend⟩

/-- Maximum value of a signed 32-bit integer; run counts beyond it are
malformed (spec §3 invariant 5, IMPALA-6946). -/
def INT32MAX : Nat := 2 ^ 31 - 1

/-- Parse the next run header (`NextCounts` in the source).  Modelled from the
spec: the ULEB128 header's low bit selects the variant; a header decoding to
0, a literal count whose value count `8·G` would not fit in a signed 32-bit
integer, or a truncated repeated-value payload yield the sticky EXHAUSTED
state.  A repeated run's value payload (`ceil(W/8)` little-endian bytes) is
read together with the header; a literal run's payload bytes are set aside
for the in-run bit reader. -/
def parseHeader (d : Dec) : Dec :=
  match ulebDecode 5 d.bytes with
  | none => { d with run := .exhausted }
  | some (hraw, rest) =>
    let h := hraw % 2 ^ 32
    if h % 2 = 1 then
      let g := h / 2
      if g = 0 ∨ INT32MAX < 8 * g then { d with run := .exhausted }
      else { d with bytes := rest.drop (g * d.w),
                    run := .lit (8 * g) (rest.take (g * d.w)) 0 }
    else
      let n := h / 2
      if n = 0 then { d with run := .exhausted }
      else if rest.length < byteWidth d.w then { d with run := .exhausted }
      else { d with bytes := rest.drop (byteWidth d.w),
                    run := .rep n (bytesToNatLE (rest.take (byteWidth d.w))) }

/-- Parse the next header if the look-ahead is empty. -/
def ensure (d : Dec) : Dec :=
  match d.run with
  | .pend => parseHeader d
  | _ => d

/-- `NextNumRepeats()`: remaining count of the current repeated run, 0
otherwise; triggers header parsing if needed. -/
def NextNumRepeats (d : Dec) : Nat × Dec :=
  let d' := ensure d
  match d'.run with
  | .rep rem _ => (rem, d')
  | _ => (0, d')

/-- `NextNumLiterals()`: remaining count of the current literal run, 0
otherwise; triggers header parsing if needed. -/
def NextNumLiterals (d : Dec) : Nat × Dec :=
  let d' := ensure d
  match d'.run with
  | .lit rem _ _ => (rem, d')
  | _ => (0, d')

/-- `GetRepeatedValue(n)`: the repeated value; advances the current repeated
run by `n` (caller guarantees `n ≤ NextNumRepeats()`). -/
def GetRepeatedValue (k : Nat) (d : Dec) : Nat × Dec :=
  match d.run with
  | .rep rem v =>
      (v, { d with run := if rem ≤ k then .pend else .rep (rem - k) v })
  | _ => (0, d)

/-- The `i`-th remaining `w`-bit field of a literal payload. -/
def litRead (payload : List Nat) (bitpos w : Nat) : Nat :=
  bytesToNatLE payload / 2 ^ bitpos % 2 ^ w

/-- `GetLiteralValues(n, out)`: unpack `n` values of the current literal run;
fails (returning `none` and the sticky EXHAUSTED state) on bit-reader
exhaustion, i.e. when the payload is truncated. -/
def GetLiteralValues (k : Nat) (d : Dec) : Option (List Nat) × Dec :=
  match d.run with
  | .lit rem payload bitpos =>
      if bitpos + k * d.w ≤ 8 * payload.length then
        (some ((List.range k).map fun i => litRead payload (bitpos + i * d.w) d.w),
         { d with run := if rem ≤ k then .pend
                         else .lit (rem - k) payload (bitpos + k * d.w) })
      else (none, { d with run := .exhausted })
  | _ => (none, d)

/-- `GetSingleValue(out)`: the next value regardless of run kind; `none` iff
the stream is exhausted. -/
def GetSingleValue (d : Dec) : Option Nat × Dec :=
  let p := NextNumRepeats d
  if 0 < p.1 then
    let q := GetRepeatedValue 1 p.2
    (some q.1, q.2)
  else
    let p2 := NextNumLiterals p.2
    if 0 < p2.1 then
      match GetLiteralValues 1 p2.2 with
      | (some vs, d3) => (vs.head?, d3)
      | (none, d3) => (none, d3)
    else (none, p2.2)

/-- `GetSingleValue` iterated: the per-value decoding path.  Collects values
until the first failure. -/
def singles : Nat → Dec → List Nat × Dec
  | 0, d => ([], d)
  | n + 1, d =>
    match GetSingleValue d with
    | (some v, d') =>
        let p := singles n d'
        (v :: p.1, p.2)
    | (none, d') => ([], d')

/-- `GetValues(n, out)`: fill up to `n` values, consuming successive runs in
bulk (a whole chunk of the current run per step); returns the values produced
(short at end-of-stream) and the final state.  The high-throughput batched
path of the spec §4.3. -/
def GetValues : Nat → Dec → List Nat × Dec
  | 0, d => ([], d)
  | n + 1, d =>
    let d' := ensure d
    match d'.run with
    | .rep rem _ =>
        let k := min (max rem 1) (n + 1)
        let q := GetRepeatedValue k d'
        let p := GetValues (n + 1 - k) q.2
        (List.replicate k q.1 ++ p.1, p.2)
    | .lit rem _ _ =>
        let k := min (max rem 1) (n + 1)
        match GetLiteralValues k d' with
        | (some vs, d2) =>
            let p := GetValues (n + 1 - k) d2
            (vs ++ p.1, p.2)
        | (none, d2) => ([], d2)
    | _ => ([], d')
  termination_by n _ => n
  decreasing_by all_goals omega

/-- `SkipValues(n)`: advance past up to `n` values, reading literal runs to
maintain bit-reader alignment but discarding outputs; returns the number
actually skipped. -/
def SkipValues : Nat → Dec → Nat × Dec
  | 0, d => (0, d)
  | n + 1, d =>
    let d' := ensure d
    match d'.run with
    | .rep rem _ =>
        let k := min (max rem 1) (n + 1)
        let q := GetRepeatedValue k d'
        let p := SkipValues (n + 1 - k) q.2
        (k + p.1, p.2)
    | .lit rem _ _ =>
        let k := min (max rem 1) (n + 1)
        match GetLiteralValues k d' with
        | (some _, d2) =>
            let p := SkipValues (n + 1 - k) d2
            (k + p.1, p.2)
        | (none, d2) => (0, d2)
    | _ => (0, d')
  termination_by n _ => n
  decreasing_by all_goals omega

/-- The test harness's per-run decoding loop (`RleTest::GetRleValues` in
`rle-test.cc`): drain the current run through `NextNumRepeats` /
`GetRepeatedValue` or `NextNumLiterals` / `GetLiteralValues` until `n` values
are decoded; `none` where the C++ returns `false`. -/
def GetRleValues : Nat → Dec → Option (List Nat) × Dec
  | 0, d => (some [], d)
  | n + 1, d =>
    let p := NextNumRepeats d
    if h : 0 < p.1 then
      let q := GetRepeatedValue (min p.1 (n + 1)) p.2
      match GetRleValues (n + 1 - min p.1 (n + 1)) q.2 with
      | (some vs, d3) => (some (List.replicate (min p.1 (n + 1)) q.1 ++ vs), d3)
      | (none, d3) => (none, d3)
    else
      let p2 := NextNumLiterals p.2
      if hk : min p2.1 (n + 1) = 0 then (none, p2.2)
      else
        match GetLiteralValues (min p2.1 (n + 1)) p2.2 with
        | (some vs, d3) =>
          match GetRleValues (n + 1 - min p2.1 (n + 1)) d3 with
          | (some vs', d4) => (some (vs ++ vs'), d4)
          | (none, d4) => (none, d4)
        | (none, d3) => (none, d3)
  termination_by n _ => n
  decreasing_by
  · exact Nat.sub_lt (Nat.succ_pos n) (lt_min h (Nat.succ_pos n))
  · exact Nat.sub_lt (Nat.succ_pos n) (Nat.pos_of_ne_zero hk)

/-! ## The encoder: `RleEncoder` (spec §4.2)

Modelled from the spec: `rle-encoding.h` is absent from the snapshot.  The
online decision logic follows §4.2: values are staged in octets; an octet
whose values all belong to the trailing run of identical values is withheld
once that run has length ≥ 8, and committed as the start of a repeated run
when the run reaches `max(8, min_repeated_run_length)`, or dumped back into
the literal staging when the run breaks early. -/

/-- `RleEncoder::MAX_RUN_LENGTH_BUFFER`: bound on the staging buffer for
values of a pending (not yet classified) identical-value run, and hence on
`min_repeated_run_length`.  Modelled from the spec: the numeric value is not
given there.  The test suite requires it to be at least 24 (it passes
`min_repeated_run_length = 16`), and the byte-exact vectors of
`SpecificSequences` force `max(8, min_run) ≤ 48` for every legal `min_run`;
32 is taken. -/
def MAX_RUN_LENGTH_BUFFER : Nat := 32

/-- Bound at which an open literal run is committed, keeping every emitted
literal group count far below the decoder's signed-32-bit limit.  Modelled
from the spec: §3 bounds literal runs (`G ≤ 2^29 − 1`) without fixing the
split point; 512 values (64 groups) is taken. -/
def MAX_VALUES_PER_LITERAL_RUN : Nat := 512

/-- All legal `min_repeated_run_length` arguments: the non-negative multiples
of 8 up to `MAX_RUN_LENGTH_BUFFER` (spec §4.2 construction). -/
def legalMinRuns : List Nat :=
  (List.range (MAX_RUN_LENGTH_BUFFER / 8 + 1)).map (8 * ·)

/-- Encoder state.
* `runs`: runs already committed to the output, in order;
* `lit`: the open literal run's committed values (a whole number of octets);
* `held`: octets of identical values withheld while the trailing run is long
  enough to matter (≥ 8) but has not yet reached the repeat threshold;
* `buf`: the current partial octet (0–7 values);
* `cur`, `rc`: the last value and the length of the trailing run of values
  equal to it;
* `mode`, `repCount`: repeat mode — the current run is a repeated run of
  `repCount` copies of `cur`, counted in place without buffering. -/
structure Enc where
  runs : List Run
  lit : List Nat
  held : List Nat
  buf : List Nat
  cur : Nat
  rc : Nat
  mode : Bool
  repCount : Nat
deriving DecidableEq

/-- The fresh encoder state (`current_value_ = 0`, `repeat_count_ = 0`). -/
def encInit : Enc := ⟨[], [], [], [], 0, 0, false, 0⟩

/-- Commit the open literal run once it has reached
`MAX_VALUES_PER_LITERAL_RUN` values. -/
def closeLitIfFull (e : Enc) : Enc :=
  if MAX_VALUES_PER_LITERAL_RUN ≤ e.lit.length then
    { e with runs := e.runs ++ [.lit e.lit], lit := [] }
  else e

/-- Spec §4.2 step 1: track the trailing identical-value run; when the run
breaks, dump any withheld octets into the literal staging. -/
def putTrack (e : Enc) (v : Nat) : Enc :=
  if v = e.cur then { e with rc := e.rc + 1 }
  else closeLitIfFull
    { e with lit := e.lit ++ e.held, held := [], rc := 1, cur := v }

/-- Spec §4.2 step 3 (first half): stage the value in the current octet. -/
def putBuf (e : Enc) (v : Nat) : Enc := { e with buf := e.buf ++ [v] }

/-- Spec §4.2 steps 2–5, at an octet boundary: commit the completed octet as a
literal group, withhold it while the repeat decision is pending, or enter
repeat mode (committing the open literal run first). -/
def putOctet (minRun : Nat) (e : Enc) : Enc :=
  if e.buf.length = 8 then
    if 8 ≤ e.rc then
      if max 8 minRun ≤ e.rc then
        let e3 :=
          if e.lit.isEmpty then e
          else { e with runs := e.runs ++ [.lit e.lit], lit := [] }
        { e3 with mode := true, repCount := e3.held.length + 8,
                  held := [], buf := [] }
      else { e with held := e.held ++ e.buf, buf := [] }
    else closeLitIfFull { e with lit := e.lit ++ e.buf, buf := [] }
  else e

/-- `Put(value)` without the buffer-capacity check: the state transition of
spec §4.2 steps 1–5. -/
def PutRaw (minRun : Nat) (e : Enc) (v : Nat) : Enc :=
  if e.mode then
    if v = e.cur then
      if e.repCount < INT32MAX then { e with repCount := e.repCount + 1 }
      else { e with runs := e.runs ++ [.rep e.repCount e.cur], repCount := 1 }
    else
      { e with runs := e.runs ++ [.rep e.repCount e.cur],
               lit := [], held := [], buf := [v],
               cur := v, rc := 1, mode := false, repCount := 0 }
  else putOctet minRun (putBuf (putTrack e v) v)

/-- The runs `Flush()` commits: a buffered repeat becomes a repeated run; the
tail 0–7 literal values are packed into a final zero-padded octet and the
open literal run is closed (spec §4.2 `flush`). -/
def FlushRuns (e : Enc) : List Run :=
  if e.mode then e.runs ++ [.rep e.repCount e.cur]
  else
    let l := e.lit ++ e.held ++
      (if e.buf.isEmpty then [] else e.buf ++ List.replicate (8 - e.buf.length) 0)
    if l.isEmpty then e.runs else e.runs ++ [.lit l]

/-- Run decomposition chosen by the encoder for a value sequence (capacity
checks aside: the test harness uses a 64 KiB buffer that is never exceeded). -/
def encodeRuns (minRun : Nat) (vs : List Nat) : List Run :=
  FlushRuns (vs.foldl (PutRaw minRun) encInit)

/-- `Put` over the whole sequence followed by `Flush`: the byte stream the
encoder emits. -/
def encode (w minRun : Nat) (vs : List Nat) : List Nat :=
  serialize w (encodeRuns minRun vs)

/-- Number of bytes `Flush()` would write from state `e`. -/
def flushLen (w : Nat) (e : Enc) : Nat := (serialize w (FlushRuns e)).length

/-- `Put(value) -> bool` with the buffer-capacity check: returns false — with
no state change — when the output buffer cannot accommodate the value, i.e.
when the stream `Flush` would emit after accepting it exceeds the buffer
capacity (spec §4.2 failure semantics). -/
def Put (w minRun bufLen : Nat) (e : Enc) (v : Nat) : Bool × Enc :=
  let e' := PutRaw minRun e v
  if flushLen w e' ≤ bufLen then (true, e') else (false, e)

/-- Feed a whole sequence through `Put`, collecting the accepted values. -/
def PutList (w minRun bufLen : Nat) (e : Enc) : List Nat → Enc × List Nat
  | [] => (e, [])
  | v :: vs =>
    match Put w minRun bufLen e v with
    | (true, e') =>
        let p := PutList w minRun bufLen e' vs
        (p.1, v :: p.2)
    | (false, _) =>
        let p := PutList w minRun bufLen e vs
        (p.1, p.2)

/-- `RleEncoder::MinBufferSize(bit_width)`: worst-case bytes for one literal
group of 8 values plus one single-value repeated run.  Modelled from the
spec §4.2: `1 + ceil(8·W/8) + 1 + ceil(W/8)`. -/
def MinBufferSize (w : Nat) : Nat := 1 + w + 1 + byteWidth w

/-! ## Decoder lemmas: single-step behaviour -/

theorem ensure_of_ne_pend (d : Dec) (h : d.run ≠ .pend) : ensure d = d := by
  unfold ensure
  match hr : d.run with
  | .pend => exact absurd hr h
  | .exhausted => rfl
  | .rep _ _ => rfl
  | .lit _ _ _ => rfl

theorem parseHeader_ne_pend (d : Dec) : (parseHeader d).run ≠ .pend := by
  unfold parseHeader
  rcases h : ulebDecode 5 d.bytes with _ | ⟨hr, rest⟩
  · simp
  · dsimp only
    split
    · split
      · simp
      · simp
    · split
      · simp
      · split
        · simp
        · simp

theorem GetSingleValue_exhausted (w : Nat) (B : List Nat) :
    GetSingleValue ⟨w, B, .exhausted⟩ = (none, ⟨w, B, .exhausted⟩) := rfl

theorem GetSingleValue_pend (d : Dec) (h : d.run = .pend) :
    GetSingleValue d = GetSingleValue (parseHeader d) := by
  have he : ensure d = parseHeader d := by
    unfold ensure; rw [h]
  have he2 : ensure (parseHeader d) = parseHeader d :=
    ensure_of_ne_pend _ (parseHeader_ne_pend d)
  unfold GetSingleValue NextNumRepeats NextNumLiterals
  rw [he, he2]

theorem GetSingleValue_rep (w : Nat) (B : List Nat) (rem v : Nat)
    (h : 1 ≤ rem) :
    GetSingleValue ⟨w, B, .rep rem v⟩ =
      (some v, ⟨w, B, if rem ≤ 1 then .pend else .rep (rem - 1) v⟩) := by
  have h0 : 0 < rem := h
  unfold GetSingleValue NextNumRepeats GetRepeatedValue
  simp [ensure, h0]

theorem GetSingleValue_lit (w : Nat) (B : List Nat) (rem : Nat)
    (payload : List Nat) (bitpos : Nat) (h : 1 ≤ rem)
    (hb : bitpos + w ≤ 8 * payload.length) :
    GetSingleValue ⟨w, B, .lit rem payload bitpos⟩ =
      (some (litRead payload bitpos w),
       ⟨w, B, if rem ≤ 1 then .pend else .lit (rem - 1) payload (bitpos + w)⟩) := by
  have h0 : 0 < rem := h
  unfold GetSingleValue NextNumRepeats NextNumLiterals GetLiteralValues
  simp [ensure, h0, hb, List.range_succ]

theorem GetSingleValue_lit_fail (w : Nat) (B : List Nat) (rem : Nat)
    (payload : List Nat) (bitpos : Nat) (h : 1 ≤ rem)
    (hb : ¬ bitpos + w ≤ 8 * payload.length) :
    GetSingleValue ⟨w, B, .lit rem payload bitpos⟩ =
      (none, ⟨w, B, .exhausted⟩) := by
  have h0 : 0 < rem := h
  unfold GetSingleValue NextNumRepeats NextNumLiterals GetLiteralValues
  simp [ensure, h0, hb]

/-- A failed `GetSingleValue` leaves the decoder in an absorbing state: every
further call fails without state change (the sticky EXHAUSTED discipline). -/
theorem GetSingleValue_absorb (d d' : Dec)
    (h : GetSingleValue d = (none, d')) : GetSingleValue d' = (none, d') := by
  rcases d with ⟨w, B, run⟩
  match hr : run with
  | .exhausted =>
    rw [GetSingleValue_exhausted] at h
    cases h
    exact GetSingleValue_exhausted w B
  | .pend =>
    rw [GetSingleValue_pend ⟨w, B, .pend⟩ rfl] at h
    generalize hp : parseHeader ⟨w, B, .pend⟩ = q at h
    have hq : q.run ≠ .pend := by rw [← hp]; exact parseHeader_ne_pend _
    rcases q with ⟨w2, B2, run2⟩
    match hr2 : run2 with
    | .pend => exact absurd rfl hq
    | .exhausted =>
      rw [GetSingleValue_exhausted] at h
      cases h
      exact GetSingleValue_exhausted _ _
    | .rep rem v =>
      by_cases h1 : 1 ≤ rem
      · rw [GetSingleValue_rep _ _ _ _ h1] at h; cases h
      · have : rem = 0 := by omega
        subst this
        simp only [GetSingleValue, NextNumRepeats, NextNumLiterals, ensure,
          GetLiteralValues] at h ⊢
        cases h
        rfl
    | .lit rem payload bitpos =>
      by_cases h1 : 1 ≤ rem
      · by_cases h2 : bitpos + w2 ≤ 8 * payload.length
        · rw [GetSingleValue_lit _ _ _ _ _ h1 h2] at h; cases h
        · rw [GetSingleValue_lit_fail _ _ _ _ _ h1 h2] at h
          cases h
          exact GetSingleValue_exhausted _ _
      · have : rem = 0 := by omega
        subst this
        simp only [GetSingleValue, NextNumRepeats, NextNumLiterals, ensure,
          GetLiteralValues] at h ⊢
        cases h
        rfl
  | .rep rem v =>
    by_cases h1 : 1 ≤ rem
    · rw [GetSingleValue_rep _ _ _ _ h1] at h; cases h
    · have : rem = 0 := by omega
      subst this
      simp only [GetSingleValue, NextNumRepeats, NextNumLiterals, ensure,
        GetLiteralValues] at h ⊢
      cases h
      rfl
  | .lit rem payload bitpos =>
    by_cases h1 : 1 ≤ rem
    · by_cases h2 : bitpos + w ≤ 8 * payload.length
      · rw [GetSingleValue_lit _ _ _ _ _ h1 h2] at h; cases h
      · rw [GetSingleValue_lit_fail _ _ _ _ _ h1 h2] at h
        cases h
        exact GetSingleValue_exhausted _ _
    · have : rem = 0 := by omega
      subst this
      simp only [GetSingleValue, NextNumRepeats, NextNumLiterals, ensure,
        GetLiteralValues] at h ⊢
      cases h
      rfl


theorem singles_stuck (n : Nat) (d : Dec) (h : GetSingleValue d = (none, d)) :
    singles n d = ([], d) := by
  cases n with
  | zero => rfl
  | succ m => simp only [singles, h]

/-- Decomposing an iterated per-value read: reading `a + b` values is reading
`a`, then `b` more from the resulting state. -/
theorem singles_add (a : Nat) :
    ∀ (b : Nat) (d : Dec),
      singles (a + b) d =
        ((singles a d).1 ++ (singles b (singles a d).2).1,
         (singles b (singles a d).2).2) := by
  induction a with
  | zero => intro b d; simp [singles]
  | succ k ih =>
    intro b d
    have hshift : k + 1 + b = (k + b) + 1 := by omega
    rw [hshift]
    rcases hg : GetSingleValue d with ⟨o, d1⟩
    cases o with
    | some v =>
      simp only [singles, hg]
      rw [ih b d1]
      simp
    | none =>
      have habs : GetSingleValue d1 = (none, d1) := GetSingleValue_absorb d d1 hg
      simp only [singles, hg]
      rw [singles_stuck b d1 habs]
      simp

theorem singles_length_le (n : Nat) : ∀ d : Dec, (singles n d).1.length ≤ n := by
  induction n with
  | zero => intro d; simp [singles]
  | succ k ih =>
    intro d
    rcases hg : GetSingleValue d with ⟨o, d1⟩
    cases o with
    | some v => simp only [singles, hg, List.length_cons]; exact Nat.succ_le_succ (ih d1)
    | none => simp [singles, hg]

/-- Consuming `k ≤ rem` values of a repeated run one by one. -/
theorem singles_rep (k : Nat) :
    ∀ (w : Nat) (B : List Nat) (rem v : Nat), 1 ≤ rem → k ≤ rem →
      singles k ⟨w, B, .rep rem v⟩ =
        (List.replicate k v,
         ⟨w, B, if rem ≤ k then .pend else .rep (rem - k) v⟩) := by
  induction k with
  | zero =>
    intro w B rem v h1 _
    simp [singles, Nat.not_le.mpr (show 0 < rem from h1)]
  | succ k ih =>
    intro w B rem v h1 hk
    simp only [singles, GetSingleValue_rep w B rem v h1]
    by_cases hr : rem ≤ 1
    · have hrem : rem = 1 := by omega
      have hk0 : k = 0 := by omega
      subst hrem hk0
      simp [singles]
    · rw [if_neg hr]
      have h1' : 1 ≤ rem - 1 := by omega
      have hk' : k ≤ rem - 1 := by omega
      rw [ih w B (rem - 1) v h1' hk']
      have e1 : rem - 1 ≤ k ↔ rem ≤ k + 1 := by omega
      have e2 : rem - 1 - k = rem - (k + 1) := by omega
      simp only [e1, e2, List.replicate_succ]

end Rle

namespace Rle

/-- The whole-number-of-octets literal payload faithfully stores the packed
values: reading back the `i`-th `w`-bit field recovers the `i`-th value. -/
theorem litRead_litPayload (w : Nat) (l : List Nat) (i : Nat)
    (hlen : l.length % 8 = 0) (hval : ∀ x ∈ l, x < 2 ^ w) (hi : i < l.length) :
    litRead (litPayload w l) (i * w) w = l.getD i 0 := by
  unfold litRead litPayload
  have hexp : 8 * (l.length / 8 * w) = w * l.length := by
    have h8 : 8 * (l.length / 8) = l.length := by omega
    calc 8 * (l.length / 8 * w) = 8 * (l.length / 8) * w := by ring
      _ = l.length * w := by rw [h8]
      _ = w * l.length := by ring
  have hbound : packNat w l < 256 ^ (l.length / 8 * w) := by
    have h1 : (256 : Nat) ^ (l.length / 8 * w) = 2 ^ (8 * (l.length / 8 * w)) := by
      rw [show (256 : Nat) = 2 ^ 8 by norm_num, ← pow_mul]
    rw [h1, hexp]
    exact packNat_lt w l
  rw [bytesToNatLE_natToBytesLE, Nat.mod_eq_of_lt hbound, mul_comm i w,
    packNat_extract w l i hi]
  have : l.get ⟨i, hi⟩ = l.getD i 0 := by
    rw [List.getD_eq_getElem l 0 hi]
    simp
  rw [this]
  have hmem : l.getD i 0 ∈ l := by
    rw [← this]
    exact List.get_mem l i hi
  exact Nat.mod_eq_of_lt (hval _ hmem)

end Rle

namespace Rle

/-- Consuming `k` values of a literal run one by one, starting `i` values into
the run. -/
theorem singles_lit (w : Nat) (B : List Nat) (l : List Nat)
    (hlen : l.length % 8 = 0) (hval : ∀ x ∈ l, x < 2 ^ w) :
    ∀ (k i : Nat), i + k ≤ l.length →
      singles k ⟨w, B, .lit (l.length - i) (litPayload w l) (i * w)⟩ =
        ((List.range k).map (fun m => l.getD (i + m) 0),
         ⟨w, B, if l.length ≤ i + k ∧ 0 < k then .pend
                else .lit (l.length - (i + k)) (litPayload w l) ((i + k) * w)⟩) := by
  intro k
  induction k with
  | zero =>
    intro i hik
    simp [singles]
  | succ k ih =>
    intro i hik
    have hi : i < l.length := by omega
    have hplen : (litPayload w l).length = l.length / 8 * w := by
      unfold litPayload; exact length_natToBytesLE _ _
    have hbits : 8 * (litPayload w l).length = l.length * w := by
      rw [hplen]
      have h8 : 8 * (l.length / 8) = l.length := by omega
      calc 8 * (l.length / 8 * w) = 8 * (l.length / 8) * w := by ring
        _ = l.length * w := by rw [h8]
    have hrem : 1 ≤ l.length - i := by omega
    have hb : i * w + w ≤ 8 * (litPayload w l).length := by
      rw [hbits]
      calc i * w + w = (i + 1) * w := by ring
        _ ≤ l.length * w := Nat.mul_le_mul_right w (by omega)
    simp only [singles,
      GetSingleValue_lit w B (l.length - i) (litPayload w l) (i * w) hrem hb,
      litRead_litPayload w l i hlen hval hi]
    by_cases hlast : l.length - i ≤ 1
    · -- the run's last value: the look-ahead becomes empty
      have hl1 : l.length = i + 1 := by omega
      have hk0 : k = 0 := by omega
      subst hk0
      rw [if_pos hlast]
      simp [singles, hl1, List.range_succ]
    · rw [if_neg hlast]
      have e1 : l.length - i - 1 = l.length - (i + 1) := by omega
      have e2 : i * w + w = (i + 1) * w := by ring
      rw [e1, e2, ih (i + 1) (by omega)]
      have hvals : l.getD i 0 :: (List.range k).map (fun m => l.getD (i + 1 + m) 0)
          = (List.range (k + 1)).map (fun m => l.getD (i + m) 0) := by
        rw [List.range_succ_eq_map, List.map_cons, List.map_map]
        have : ((fun m => l.getD (i + m) 0) ∘ Nat.succ)
            = fun m => l.getD (i + 1 + m) 0 := by
          funext m
          simp only [Function.comp]
          rw [show i + Nat.succ m = i + 1 + m by omega]
        rw [this]
        simp
      rw [hvals]
      have e3 : i + 1 + k = i + (k + 1) := by omega
      rw [e3]
      by_cases hcond : l.length ≤ i + (k + 1)
      · have hk1 : 0 < k := by omega
        rw [if_pos ⟨hcond, hk1⟩, if_pos ⟨hcond, Nat.succ_pos k⟩]
      · rw [if_neg (by intro hc; exact hcond hc.1),
          if_neg (by intro hc; exact hcond hc.1)]

end Rle

namespace Rle

/-- Well-formed run (spec §3): counts at least 1 and within the signed-32-bit
bound, literal runs a non-zero whole number of octets, values within the bit
width. -/
def RunWF (w : Nat) : Run → Prop
  | .rep n v => 1 ≤ n ∧ n ≤ INT32MAX ∧ v < 2 ^ w
  | .lit l => l ≠ [] ∧ l.length % 8 = 0 ∧ l.length ≤ INT32MAX ∧ ∀ x ∈ l, x < 2 ^ w

theorem w_le_8_byteWidth (w : Nat) : w ≤ 8 * byteWidth w := by
  unfold byteWidth; omega

/-- Parsing a serialized repeated run consumes exactly its header and value
payload. -/
theorem parseHeader_rep (w : Nat) (n v : Nat) (rest : List Nat)
    (h1 : 1 ≤ n) (h2 : n ≤ INT32MAX) (hv : v < 2 ^ w) :
    parseHeader ⟨w, serializeRun w (.rep n v) ++ rest, .pend⟩ =
      ⟨w, rest, .rep n v⟩ := by
  have h2n : 2 * n < 2 ^ 32 := by unfold INT32MAX at h2; omega
  have hlt : 2 * n < 128 ^ (4 + 1) := by
    calc 2 * n < 2 ^ 32 := h2n
      _ < 128 ^ 5 := by norm_num
  unfold parseHeader serializeRun
  simp only [List.append_assoc]
  rw [ulebDecode_ulebEncode 4 (2 * n) hlt (natToBytesLE (byteWidth w) v ++ rest)]
  have hmod : 2 * n % 2 ^ 32 = 2 * n := Nat.mod_eq_of_lt h2n
  have hodd : ¬ 2 * n % 2 ^ 32 % 2 = 1 := by omega
  have hdiv2 : 2 * n % 2 ^ 32 / 2 = n := by omega
  have hn0 : ¬ n = 0 := by omega
  have hlenge : ¬ (natToBytesLE (byteWidth w) v ++ rest).length < byteWidth w := by
    simp [List.length_append]
  have hvlt : v < 256 ^ byteWidth w := by
    have : (2 : Nat) ^ w ≤ 2 ^ (8 * byteWidth w) :=
      Nat.pow_le_pow_right (by norm_num) (w_le_8_byteWidth w)
    have h256 : (256 : Nat) ^ byteWidth w = 2 ^ (8 * byteWidth w) := by
      rw [show (256 : Nat) = 2 ^ 8 by norm_num, ← pow_mul]
    omega
  simp only [hdiv2, hodd, if_false, hn0, hlenge, if_neg hn0,
    if_neg (by simp [List.length_append] : ¬ (natToBytesLE (byteWidth w) v ++ rest).length < byteWidth w)]
  rw [List.take_left' (length_natToBytesLE _ _), List.drop_left' (length_natToBytesLE _ _),
    bytesToNatLE_natToBytesLE, Nat.mod_eq_of_lt hvlt]

/-- Parsing a serialized literal run consumes its header and sets the packed
payload aside for the in-run bit reader. -/
theorem parseHeader_lit (w : Nat) (l : List Nat) (rest : List Nat)
    (hne : l ≠ []) (hlen : l.length % 8 = 0) (hmax : l.length ≤ INT32MAX) :
    parseHeader ⟨w, serializeRun w (.lit l) ++ rest, .pend⟩ =
      ⟨w, rest, .lit l.length (litPayload w l) 0⟩ := by
  have hlen8 : 8 ≤ l.length := by
    have h0 : l.length ≠ 0 := fun h => hne (List.eq_nil_of_length_eq_zero h)
    omega
  have hg1 : 1 ≤ l.length / 8 := by omega
  have hg8 : 8 * (l.length / 8) = l.length := by omega
  have hhead : 2 * (l.length / 8) + 1 < 2 ^ 32 := by unfold INT32MAX at hmax; omega
  have hlt : 2 * (l.length / 8) + 1 < 128 ^ (4 + 1) := by
    calc 2 * (l.length / 8) + 1 < 2 ^ 32 := hhead
      _ < 128 ^ 5 := by norm_num
  unfold parseHeader serializeRun
  simp only [List.append_assoc]
  rw [ulebDecode_ulebEncode 4 _ hlt (litPayload w l ++ rest)]
  have hmod : (2 * (l.length / 8) + 1) % 2 ^ 32 = 2 * (l.length / 8) + 1 :=
    Nat.mod_eq_of_lt hhead
  have hodd : (2 * (l.length / 8) + 1) % 2 ^ 32 % 2 = 1 := by omega
  have hdiv2 : (2 * (l.length / 8) + 1) % 2 ^ 32 / 2 = l.length / 8 := by omega
  have hok : ¬ (l.length / 8 = 0 ∨ INT32MAX < 8 * (l.length / 8)) := by
    push_neg
    constructor
    · omega
    · omega
  have hplen : (litPayload w l).length = l.length / 8 * w := by
    unfold litPayload; exact length_natToBytesLE _ _
  simp only [hdiv2, hodd, if_pos hodd, if_neg hok]
  rw [List.take_left' hplen, List.drop_left' hplen]
  simp [hg8]

end Rle

namespace Rle

theorem singles_pend (m : Nat) (hm : 1 ≤ m) (w : Nat) (B : List Nat) :
    singles m ⟨w, B, .pend⟩ = singles m (parseHeader ⟨w, B, .pend⟩) := by
  rcases m with _ | m
  · omega
  · simp only [singles, GetSingleValue_pend ⟨w, B, .pend⟩ rfl]

theorem map_getD_range (l : List Nat) :
    (List.range l.length).map (fun m => l.getD m 0) = l := by
  induction l with
  | nil => simp
  | cons a t ih =>
    rw [List.length_cons, List.range_succ_eq_map, List.map_cons, List.map_map]
    have hf : ((fun m => (a :: t).getD m 0) ∘ Nat.succ) = fun m => t.getD m 0 := by
      funext m
      simp [Function.comp]
    rw [hf, ih]
    simp

theorem runValues_length_pos (w : Nat) (r : Run) (h : RunWF w r) :
    1 ≤ (runValues r).length := by
  cases r with
  | rep n v =>
    rcases h with ⟨h1, -, -⟩
    simp [runValues]
    omega
  | lit l =>
    rcases h with ⟨h1, -, -, -⟩
    have : l.length ≠ 0 := fun hh => h1 (List.eq_nil_of_length_eq_zero hh)
    simp [runValues]
    omega

/-- Decoding a serialized stream of well-formed runs value by value yields
exactly the runs' values and ends with the look-ahead empty at the end of the
buffer. -/
theorem stream_singles (w : Nat) (rs : List Run) (hwf : ∀ r ∈ rs, RunWF w r) :
    singles (runsValues rs).length ⟨w, serialize w rs, .pend⟩ =
      (runsValues rs, ⟨w, [], .pend⟩) := by
  induction rs with
  | nil => simp [singles]
  | cons r rs ih =>
    have hwr : RunWF w r := hwf r (List.mem_cons_self r rs)
    have hws : ∀ q ∈ rs, RunWF w q := fun q hq => hwf q (List.mem_cons_of_mem r hq)
    have hpos := runValues_length_pos w r hwr
    rw [runsValues_cons, List.length_append, serialize_cons,
      singles_add (runValues r).length (runsValues rs).length]
    have hfirst :
        singles (runValues r).length ⟨w, serializeRun w r ++ serialize w rs, .pend⟩ =
          (runValues r, ⟨w, serialize w rs, .pend⟩) := by
      rw [singles_pend _ hpos]
      cases r with
      | rep n v =>
        rcases hwr with ⟨h1, h2, h3⟩
        rw [parseHeader_rep w n v (serialize w rs) h1 h2 h3]
        have : (runValues (Run.rep n v)).length = n := by simp [runValues]
        rw [this]
        rw [singles_rep n w (serialize w rs) n v h1 (le_refl n)]
        simp [runValues]
      | lit l =>
        rcases hwr with ⟨h1, h2, h3, h4⟩
        rw [parseHeader_lit w l (serialize w rs) h1 h2 h3]
        have hl : (runValues (Run.lit l)).length = l.length := by simp [runValues]
        rw [hl]
        have := singles_lit w (serialize w rs) l h2 h4 l.length 0 (by omega)
        simp only [Nat.sub_zero, Nat.zero_mul, Nat.zero_add] at this
        rw [this, if_pos ⟨le_refl _, by omega⟩, map_getD_range]
        simp [runValues]
    rw [hfirst]
    simp only
    rw [ih hws]

/-- Decoding `n ≤ |V|` values from a serialized well-formed stream yields the
first `n` stream values. -/
theorem stream_singles_take (w : Nat) (rs : List Run) (hwf : ∀ r ∈ rs, RunWF w r)
    (n : Nat) (hn : n ≤ (runsValues rs).length) :
    (singles n ⟨w, serialize w rs, .pend⟩).1 = (runsValues rs).take n := by
  have htot := stream_singles w rs hwf
  have hsplit := singles_add n ((runsValues rs).length - n) ⟨w, serialize w rs, .pend⟩
  rw [show n + ((runsValues rs).length - n) = (runsValues rs).length by omega, htot]
    at hsplit
  have h1 : runsValues rs =
      (singles n ⟨w, serialize w rs, .pend⟩).1 ++
        (singles ((runsValues rs).length - n)
          (singles n ⟨w, serialize w rs, .pend⟩).2).1 :=
    congrArg Prod.fst hsplit
  have hx := singles_length_le n ⟨w, serialize w rs, .pend⟩
  have hxn : (singles n ⟨w, serialize w rs, .pend⟩).1.length = n := by
    have hy := singles_length_le ((runsValues rs).length - n)
      (singles n ⟨w, serialize w rs, .pend⟩).2
    have hl := congrArg List.length h1
    rw [List.length_append] at hl
    omega
  rw [h1, List.take_left' hxn]

end Rle

namespace Rle

/-! ## Encoder invariant and flattening -/

@[simp] theorem runsValues_append (a b : List Run) :
    runsValues (a ++ b) = runsValues a ++ runsValues b := by
  simp [runsValues]

@[simp] theorem runsValues_rep (n v : Nat) :
    runsValues [Run.rep n v] = List.replicate n v := by
  simp [runsValues, runValues]

@[simp] theorem runsValues_lit (l : List Nat) : runsValues [Run.lit l] = l := by
  simp [runsValues, runValues]

/-- Values pending in the encoder's staging state, in stream order. -/
def pendingVals (e : Enc) : List Nat :=
  if e.mode then List.replicate e.repCount e.cur else e.lit ++ e.held ++ e.buf

/-- All values fed to the encoder so far: committed runs, then staging. -/
def encVals (e : Enc) : List Nat := runsValues e.runs ++ pendingVals e

/-- Count and shape constraints on a committed run (value bounds are recovered
from the flattening equation). -/
def RunShape : Run → Prop
  | .rep n _ => 1 ≤ n ∧ n ≤ INT32MAX
  | .lit l => l ≠ [] ∧ l.length % 8 = 0 ∧ l.length ≤ INT32MAX

/-- The encoder-state invariant maintained by `PutRaw`. -/
structure EncInv (minRun : Nat) (e : Enc) : Prop where
  runs_shape : ∀ r ∈ e.runs, RunShape r
  mode_empty : e.mode = true → e.lit = [] ∧ e.held = [] ∧ e.buf = []
  mode_count : e.mode = true → 1 ≤ e.repCount ∧ e.repCount ≤ INT32MAX
  buf_le : e.buf.length ≤ 7
  lit_mod : e.lit.length % 8 = 0
  lit_lt : e.lit.length < MAX_VALUES_PER_LITERAL_RUN
  held_mod : e.held.length % 8 = 0
  held_cur : ∀ x ∈ e.held, x = e.cur
  held_rc : e.held ≠ [] → 8 ≤ e.rc ∧ e.held.length + e.buf.length ≤ e.rc
  held_bound : e.held.length + 8 ≤ max 8 minRun
  buf_cur : e.buf.length ≤ e.rc → ∀ x ∈ e.buf, x = e.cur

theorem encInv_init (minRun : Nat) : EncInv minRun encInit := by
  refine ⟨?_, ?_, ?_, ?_, ?_, ?_, ?_, ?_, ?_, ?_, ?_⟩ <;>
    simp [encInit, MAX_VALUES_PER_LITERAL_RUN]

theorem closeLit_fields (e : Enc) :
    (closeLitIfFull e).held = e.held ∧ (closeLitIfFull e).buf = e.buf ∧
    (closeLitIfFull e).cur = e.cur ∧ (closeLitIfFull e).rc = e.rc ∧
    (closeLitIfFull e).mode = e.mode ∧ (closeLitIfFull e).repCount = e.repCount := by
  unfold closeLitIfFull
  split <;> simp

theorem closeLit_runs_lit (e : Enc) :
    runsValues (closeLitIfFull e).runs ++ (closeLitIfFull e).lit =
      runsValues e.runs ++ e.lit := by
  unfold closeLitIfFull
  split <;> simp [runsValues, runValues]

theorem closeLit_shape (e : Enc) (h1 : e.lit.length % 8 = 0)
    (h2 : e.lit.length ≤ 600) (hs : ∀ r ∈ e.runs, RunShape r) :
    (∀ r ∈ (closeLitIfFull e).runs, RunShape r) ∧
    (closeLitIfFull e).lit.length < MAX_VALUES_PER_LITERAL_RUN ∧
    (closeLitIfFull e).lit.length % 8 = 0 := by
  by_cases hcase : MAX_VALUES_PER_LITERAL_RUN ≤ e.lit.length
  · simp only [closeLitIfFull, if_pos hcase]
    refine ⟨?_, ?_, ?_⟩
    · intro r hr
      simp only [List.mem_append, List.mem_singleton] at hr
      rcases hr with hr | hr
      · exact hs r hr
      · subst hr
        refine ⟨?_, h1, ?_⟩
        · intro hnil
          rw [hnil] at hcase
          simp [MAX_VALUES_PER_LITERAL_RUN] at hcase
        · unfold INT32MAX; omega
    · simp [MAX_VALUES_PER_LITERAL_RUN]
    · simp
  · simp only [closeLitIfFull, if_neg hcase]
    exact ⟨hs, by omega, h1⟩

theorem list_eq_replicate_of_all (l : List Nat) (a : Nat) (h : ∀ x ∈ l, x = a) :
    l = List.replicate l.length a := by
  induction l with
  | nil => simp
  | cons b t ih =>
    have hb : b = a := h b (List.mem_cons_self b t)
    have ht := ih (fun x hx => h x (List.mem_cons_of_mem b hx))
    rw [List.length_cons, List.replicate_succ, hb]
    exact congrArg (List.cons a) ht

end Rle

namespace Rle

@[simp] theorem closeLit_held (e : Enc) : (closeLitIfFull e).held = e.held := by
  unfold closeLitIfFull; split <;> rfl

@[simp] theorem closeLit_buf (e : Enc) : (closeLitIfFull e).buf = e.buf := by
  unfold closeLitIfFull; split <;> rfl

@[simp] theorem closeLit_cur (e : Enc) : (closeLitIfFull e).cur = e.cur := by
  unfold closeLitIfFull; split <;> rfl

@[simp] theorem closeLit_rc (e : Enc) : (closeLitIfFull e).rc = e.rc := by
  unfold closeLitIfFull; split <;> rfl

@[simp] theorem closeLit_mode (e : Enc) : (closeLitIfFull e).mode = e.mode := by
  unfold closeLitIfFull; split <;> rfl

@[simp] theorem closeLit_repCount (e : Enc) : (closeLitIfFull e).repCount = e.repCount := by
  unfold closeLitIfFull; split <;> rfl

theorem closeLit_lit_mod (e : Enc) (h : e.lit.length % 8 = 0) :
    (closeLitIfFull e).lit.length % 8 = 0 := by
  unfold closeLitIfFull; split <;> simpa

/-! Case shapes of `PutRaw` outside repeat mode. -/

theorem putRaw_shape_ext (minRun : Nat) (e : Enc) (v : Nat)
    (hmode : e.mode = false) (hv : v = e.cur) (hb : e.buf.length + 1 ≠ 8) :
    PutRaw minRun e v = { e with rc := e.rc + 1, buf := e.buf ++ [v] } := by
  unfold PutRaw putTrack putBuf putOctet
  simp [hmode, hv, hb]

theorem putRaw_shape_entry (minRun : Nat) (e : Enc) (v : Nat)
    (hmode : e.mode = false) (hv : v = e.cur) (hb : e.buf.length + 1 = 8)
    (hrc : 8 ≤ e.rc + 1) (hT : max 8 minRun ≤ e.rc + 1) (hle : e.lit = []) :
    PutRaw minRun e v =
      { e with rc := e.rc + 1, buf := [], held := [],
               mode := true, repCount := e.held.length + 8 } := by
  unfold PutRaw putTrack putBuf putOctet
  simp [hmode, hv, hb, hrc, hT, hle]

theorem putRaw_shape_entry_lit (minRun : Nat) (e : Enc) (v : Nat)
    (hmode : e.mode = false) (hv : v = e.cur) (hb : e.buf.length + 1 = 8)
    (hrc : 8 ≤ e.rc + 1) (hT : max 8 minRun ≤ e.rc + 1) (hle : ¬ e.lit = []) :
    PutRaw minRun e v =
      { e with runs := e.runs ++ [.lit e.lit], lit := [],
               rc := e.rc + 1, buf := [], held := [],
               mode := true, repCount := e.held.length + 8 } := by
  unfold PutRaw putTrack putBuf putOctet
  simp [hmode, hv, hb, hrc, hT, hle]

theorem putRaw_shape_hold (minRun : Nat) (e : Enc) (v : Nat)
    (hmode : e.mode = false) (hv : v = e.cur) (hb : e.buf.length + 1 = 8)
    (hrc : 8 ≤ e.rc + 1) (hT : ¬ max 8 minRun ≤ e.rc + 1) :
    PutRaw minRun e v =
      { e with rc := e.rc + 1, held := e.held ++ (e.buf ++ [v]), buf := [] } := by
  unfold PutRaw putTrack putBuf putOctet
  simp [hmode, hv, hb, hrc, hT]

theorem putRaw_shape_commit (minRun : Nat) (e : Enc) (v : Nat)
    (hmode : e.mode = false) (hv : v = e.cur) (hb : e.buf.length + 1 = 8)
    (hrc : ¬ 8 ≤ e.rc + 1) :
    PutRaw minRun e v =
      closeLitIfFull
        { e with rc := e.rc + 1, lit := e.lit ++ (e.buf ++ [v]), buf := [] } := by
  unfold PutRaw putTrack putBuf putOctet
  simp [hmode, hv, hb, hrc]

/-- The state after a run break (`putTrack` with a differing value). -/
def brkState (e : Enc) (v : Nat) : Enc :=
  closeLitIfFull { e with lit := e.lit ++ e.held, held := [], rc := 1, cur := v }

theorem putRaw_shape_brk (minRun : Nat) (e : Enc) (v : Nat)
    (hmode : e.mode = false) (hv : ¬ v = e.cur) (hb : e.buf.length + 1 ≠ 8) :
    PutRaw minRun e v = { brkState e v with buf := e.buf ++ [v] } := by
  unfold PutRaw putTrack putBuf putOctet brkState
  simp [hmode, hv, hb]

theorem putRaw_shape_brk_commit (minRun : Nat) (e : Enc) (v : Nat)
    (hmode : e.mode = false) (hv : ¬ v = e.cur) (hb : e.buf.length + 1 = 8) :
    PutRaw minRun e v =
      closeLitIfFull
        { brkState e v with
            lit := (brkState e v).lit ++ (e.buf ++ [v]), buf := [] } := by
  unfold PutRaw putTrack putBuf putOctet brkState
  simp [hmode, hv, hb]

end Rle

namespace Rle

theorem closeLit_encVals (X : Enc) (hm : X.mode = false) (hh : X.held = [])
    (hb : X.buf = []) :
    encVals (closeLitIfFull X) = runsValues X.runs ++ X.lit := by
  simp only [encVals, pendingVals, closeLit_mode, hm, closeLit_held, hh,
    closeLit_buf, hb]
  rw [if_neg (by simp)]
  simpa using closeLit_runs_lit X

theorem replicate_concat8 (n : Nat) (a : Nat) :
    List.replicate (n + 8) a = List.replicate n a ++ (List.replicate 7 a ++ [a]) := by
  rw [show n + 8 = (n + 7) + 1 by omega, List.replicate_succ', List.replicate_add]
  simp [List.append_assoc]

theorem putRaw_spec (minRun : Nat) (hm8 : minRun % 8 = 0)
    (hm32 : minRun ≤ MAX_RUN_LENGTH_BUFFER) (e : Enc) (v : Nat)
    (hinv : EncInv minRun e) :
    EncInv minRun (PutRaw minRun e v) ∧
      encVals (PutRaw minRun e v) = encVals e ++ [v] := by
  obtain ⟨hrs, hme, hmc, hble, hlm, hll, hhm, hhc, hhrc, hhb, hbc⟩ := hinv
  have hMAX : MAX_VALUES_PER_LITERAL_RUN = 512 := rfl
  have hI32 : INT32MAX = 2 ^ 31 - 1 := rfl
  have hm32' : minRun ≤ 32 := by
    unfold MAX_RUN_LENGTH_BUFFER at hm32; exact hm32
  have hll5 : e.lit.length < 512 := by rw [← hMAX]; exact hll
  have hT8 : 8 ≤ max 8 minRun := le_max_left _ _
  have hT32 : max 8 minRun ≤ 32 := by omega
  have hTmod : max 8 minRun % 8 = 0 := by
    rcases Nat.le_total minRun 8 with h | h
    · rw [Nat.max_eq_left h]
    · rw [Nat.max_eq_right h]; exact hm8
  have hheld24 : e.held.length ≤ 24 := by omega
  by_cases hmode : e.mode = true
  · obtain ⟨hl0, hh0, hb0⟩ := hme hmode
    obtain ⟨hrc1, hrc2⟩ := hmc hmode
    unfold PutRaw
    rw [if_pos hmode]
    by_cases hv : v = e.cur
    · rw [if_pos hv]
      by_cases hcap : e.repCount < INT32MAX
      · rw [if_pos hcap]
        refine ⟨⟨hrs, fun _ => ⟨hl0, hh0, hb0⟩, fun _ => by dsimp only; exact ⟨by omega, by omega⟩,
          hble, hlm, hll, hhm, hhc, hhrc, hhb, hbc⟩, ?_⟩
        simp [encVals, pendingVals, runValues, hmode, hv, List.replicate_succ']
      · rw [if_neg hcap]
        refine ⟨⟨?_, fun _ => ⟨hl0, hh0, hb0⟩, fun _ => by dsimp only; exact ⟨by omega, by omega⟩,
          hble, hlm, hll, hhm, hhc, hhrc, hhb, hbc⟩, ?_⟩
        · intro r hr
          simp only [List.mem_append, List.mem_singleton] at hr
          rcases hr with hr | hr
          · exact hrs r hr
          · subst hr; exact ⟨hrc1, hrc2⟩
        · simp [encVals, pendingVals, runValues, hmode, hv, List.replicate_succ']
    · rw [if_neg hv]
      refine ⟨⟨?_, by simp, by simp, by simp, by simp, ?_, by simp, by simp,
        by simp, by simpa using hT8, ?_⟩, ?_⟩
      · intro r hr
        simp only [List.mem_append, List.mem_singleton] at hr
        rcases hr with hr | hr
        · exact hrs r hr
        · subst hr; exact ⟨hrc1, hrc2⟩
      · simp [MAX_VALUES_PER_LITERAL_RUN]
      · intro _ x hx
        simp at hx
        simp [hx]
      · simp [encVals, pendingVals, runValues, hmode, hl0, hh0, hb0]
  · have hmf : e.mode = false := by
      cases hbm : e.mode
      · rfl
      · exact absurd hbm hmode
    by_cases hv : v = e.cur
    · by_cases hb8 : e.buf.length + 1 = 8
      · by_cases hrc : 8 ≤ e.rc + 1
        · have hbuf7 : e.buf.length = 7 := by omega
          have hbufcur : ∀ x ∈ e.buf, x = e.cur := hbc (by omega)
          have hbufrep : e.buf = List.replicate 7 e.cur := by
            have h := list_eq_replicate_of_all e.buf e.cur hbufcur
            rwa [hbuf7] at h
          have hheldrep : e.held = List.replicate e.held.length e.cur :=
            list_eq_replicate_of_all e.held e.cur hhc
          by_cases hT : max 8 minRun ≤ e.rc + 1
          · by_cases hle : e.lit = []
            · rw [putRaw_shape_entry minRun e v hmf hv hb8 hrc hT hle]
              refine ⟨⟨hrs, fun _ => ⟨hle, rfl, rfl⟩,
                fun _ => by dsimp only; exact ⟨by omega, by omega⟩,
                by simp, hlm, hll, by simp, by simp, by simp,
                by simpa using hT8, by simp⟩, ?_⟩
              simp only [encVals, pendingVals, hmf, hle]
              simp only [if_true, Bool.false_eq_true, if_false]
              rw [replicate_concat8, ← hheldrep, ← hbufrep, hv]
              simp [List.append_assoc]
            · rw [putRaw_shape_entry_lit minRun e v hmf hv hb8 hrc hT hle]
              refine ⟨⟨?_, fun _ => ⟨rfl, rfl, rfl⟩,
                fun _ => by dsimp only; exact ⟨by omega, by omega⟩,
                by simp, by simp, by simp [hMAX], by simp, by simp, by simp,
                by simpa using hT8, by simp⟩, ?_⟩
              · intro r hr
                simp only [List.mem_append, List.mem_singleton] at hr
                rcases hr with hr | hr
                · exact hrs r hr
                · subst hr
                  exact ⟨hle, hlm, by rw [hI32]; omega⟩
              · simp only [encVals, pendingVals, hmf]
                simp only [if_true, Bool.false_eq_true, if_false]
                rw [replicate_concat8, ← hheldrep, ← hbufrep, hv]
                simp [List.append_assoc, runsValues, runValues]
          · -- withhold the completed octet: repeat still undecided
            rw [putRaw_shape_hold minRun e v hmf hv hb8 hrc hT]
            refine ⟨⟨hrs, by simp [hmf], by simp [hmf], by simp, hlm, hll,
              ?_, ?_, ?_, ?_, by simp⟩, ?_⟩
            · dsimp only
              simp only [List.length_append, List.length_singleton]
              omega
            · dsimp only
              intro x hx
              simp only [List.mem_append, List.mem_singleton] at hx
              rcases hx with hx | hx | hx
              · exact hhc x hx
              · exact hbufcur x hx
              · rw [hx, hv]
            · dsimp only
              intro _
              refine ⟨hrc, ?_⟩
              simp only [List.length_append, List.length_singleton, List.length_nil]
              by_cases hh : e.held = []
              · rw [hh]
                simp only [List.length_nil]
                omega
              · obtain ⟨h8, hlen⟩ := hhrc hh
                omega
            · dsimp only
              simp only [List.length_append, List.length_singleton]
              by_cases hh : e.held = []
              · rw [hh]
                simp only [List.length_nil]
                omega
              · obtain ⟨h8, hlen⟩ := hhrc hh
                omega
            · simp [encVals, pendingVals, hmf, List.append_assoc]
        · -- the octet completes with a short trailing run: a literal group
          have hheld0 : e.held = [] := by
            by_contra hne
            obtain ⟨h8, -⟩ := hhrc hne
            omega
          rw [putRaw_shape_commit minRun e v hmf hv hb8 hrc]
          have hsh := closeLit_shape
            { e with rc := e.rc + 1, lit := e.lit ++ (e.buf ++ [v]), buf := [] }
            (by dsimp only; simp only [List.length_append, List.length_singleton]; omega)
            (by dsimp only; simp only [List.length_append, List.length_singleton]; omega)
            (by dsimp only; exact hrs)
          obtain ⟨hsh1, hsh2, hsh3⟩ := hsh
          refine ⟨⟨hsh1, by simp [hmf], by simp [hmf], by simp, hsh3, hsh2,
            by simp [hheld0], by simp [hheld0], by simp [hheld0],
            by simpa [hheld0] using hT8, by simp⟩, ?_⟩
          rw [closeLit_encVals _ (by dsimp only; exact hmf) (by dsimp only; exact hheld0) rfl]
          simp [encVals, pendingVals, hmf, hheld0, List.append_assoc]
      · -- no octet boundary: just extend the staging buffer
        rw [putRaw_shape_ext minRun e v hmf hv hb8]
        refine ⟨⟨hrs, by simp [hmf], by simp [hmf], ?_, hlm, hll, hhm, hhc,
          ?_, hhb, ?_⟩, ?_⟩
        · dsimp only
          simp only [List.length_append, List.length_singleton]
          omega
        · dsimp only
          intro hne
          obtain ⟨h8, hlen⟩ := hhrc hne
          simp only [List.length_append, List.length_singleton]
          omega
        · dsimp only
          simp only [List.length_append, List.length_singleton]
          intro hlen x hx
          simp only [List.mem_append, List.mem_singleton] at hx
          rcases hx with hx | hx
          · exact hbc (by omega) x hx
          · rw [hx, hv]
        · simp [encVals, pendingVals, hmf, List.append_assoc]
    · -- the trailing run breaks: withheld octets return to the literal staging
      have hqmod : (e.lit ++ e.held).length % 8 = 0 := by
        simp only [List.length_append]
        omega
      have hq600 : (e.lit ++ e.held).length ≤ 600 := by
        simp only [List.length_append]
        omega
      have hqsh := closeLit_shape
        { e with lit := e.lit ++ e.held, held := [], rc := 1, cur := v }
        (by dsimp only; exact hqmod) (by dsimp only; exact hq600)
        (by dsimp only; exact hrs)
      obtain ⟨hqs1, hqs2, hqs3⟩ := hqsh
      have hq := closeLit_runs_lit
        { e with lit := e.lit ++ e.held, held := [], rc := 1, cur := v }
      by_cases hb8 : e.buf.length + 1 = 8
      · rw [putRaw_shape_brk_commit minRun e v hmf hv hb8]
        have hxmod : ((brkState e v).lit ++ (e.buf ++ [v])).length % 8 = 0 := by
          simp only [List.length_append, List.length_singleton]
          have := closeLit_lit_mod
            { e with lit := e.lit ++ e.held, held := [], rc := 1, cur := v }
            (by dsimp only; exact hqmod)
          unfold brkState
          omega
        have hx600 : ((brkState e v).lit ++ (e.buf ++ [v])).length ≤ 600 := by
          simp only [List.length_append, List.length_singleton]
          unfold brkState
          omega
        have hxsh := closeLit_shape
          { brkState e v with lit := (brkState e v).lit ++ (e.buf ++ [v]), buf := [] }
          (by dsimp only; exact hxmod) (by dsimp only; exact hx600)
          (by dsimp only; unfold brkState; exact hqs1)
        obtain ⟨hxs1, hxs2, hxs3⟩ := hxsh
        refine ⟨⟨hxs1, by simp [brkState, hmf], by simp [brkState, hmf],
          by simp, hxs3, hxs2, by simp [brkState], by simp [brkState],
          by simp [brkState], by simpa [brkState] using hT8, by simp⟩, ?_⟩
        rw [closeLit_encVals _ (by simp [brkState, hmf]) (by simp [brkState]) rfl]
        dsimp only
        simp only [brkState]
        rw [← List.append_assoc, hq]
        simp [encVals, pendingVals, hmf, List.append_assoc]
      · rw [putRaw_shape_brk minRun e v hmf hv hb8]
        refine ⟨⟨?_, by simp [brkState, hmf], by simp [brkState, hmf], ?_,
          ?_, ?_, by simp [brkState], by simp [brkState], by simp [brkState],
          by simpa [brkState] using hT8, ?_⟩, ?_⟩
        · dsimp only
          unfold brkState
          exact hqs1
        · dsimp only
          simp only [List.length_append, List.length_singleton]
          omega
        · dsimp only
          unfold brkState
          exact hqs3
        · dsimp only
          unfold brkState
          exact hqs2
        · dsimp only
          simp only [brkState, closeLit_rc, closeLit_cur]
          simp only [List.length_append, List.length_singleton]
          intro hlen x hx
          have hb0 : e.buf = [] := by
            have := List.eq_nil_of_length_eq_zero (show e.buf.length = 0 by omega)
            exact this
          rw [hb0] at hx
          simp at hx
          simp [hx]
        · have hmode2 : (brkState e v).mode = false := by simp [brkState, hmf]
          have hheld2 : (brkState e v).held = [] := by simp [brkState]
          calc encVals { brkState e v with buf := e.buf ++ [v] }
              = runsValues (brkState e v).runs ++
                  ((brkState e v).lit ++ ((brkState e v).held ++ (e.buf ++ [v]))) := by
                simp [encVals, pendingVals, hmode2, List.append_assoc]
            _ = (runsValues (brkState e v).runs ++ (brkState e v).lit) ++
                  (e.buf ++ [v]) := by
                rw [hheld2]
                simp [List.append_assoc]
            _ = (runsValues e.runs ++ (e.lit ++ e.held)) ++ (e.buf ++ [v]) := by
                simp only [brkState]
                rw [hq]
            _ = encVals e ++ [v] := by
                simp [encVals, pendingVals, hmf, List.append_assoc]

end Rle

namespace Rle

/-- `Flush()` commits well-shaped runs whose values are the fed values plus
up to 7 zero-padding values in the final octet. -/
theorem flush_spec (minRun : Nat) (hm32 : minRun ≤ MAX_RUN_LENGTH_BUFFER)
    (e : Enc) (hinv : EncInv minRun e) :
    (∀ r ∈ FlushRuns e, RunShape r) ∧
    ∃ p, p < 8 ∧ runsValues (FlushRuns e) = encVals e ++ List.replicate p 0 := by
  obtain ⟨hrs, hme, hmc, hble, hlm, hll, hhm, hhc, hhrc, hhb, hbc⟩ := hinv
  have hMAX : MAX_VALUES_PER_LITERAL_RUN = 512 := rfl
  have hm32' : minRun ≤ 32 := by
    unfold MAX_RUN_LENGTH_BUFFER at hm32; exact hm32
  have hll5 : e.lit.length < 512 := by rw [← hMAX]; exact hll
  have hheld24 : e.held.length ≤ 24 := by
    have h32 : max 8 minRun ≤ 32 := by omega
    omega
  by_cases hmode : e.mode = true
  · rw [FlushRuns, if_pos hmode]
    obtain ⟨hrc1, hrc2⟩ := hmc hmode
    constructor
    · intro r hr
      simp only [List.mem_append, List.mem_singleton] at hr
      rcases hr with hr | hr
      · exact hrs r hr
      · subst hr; exact ⟨hrc1, hrc2⟩
    · exact ⟨0, by omega, by simp [encVals, pendingVals, hmode, runValues]⟩
  · have hmf : e.mode = false := by
      cases hbm : e.mode
      · rfl
      · exact absurd hbm hmode
    rw [FlushRuns, if_neg hmode]
    by_cases hbe : e.buf.isEmpty
    · have hbuf0 : e.buf = [] := List.isEmpty_iff.1 hbe
      rw [if_pos hbe]
      by_cases hl : (e.lit ++ e.held ++ ([] : List Nat)).isEmpty
      · have h0 : e.lit ++ e.held ++ ([] : List Nat) = [] := List.isEmpty_iff.1 hl
        rw [if_pos hl]
        have hlit0 : e.lit = [] := by
          have := congrArg List.length h0
          simp only [List.length_append, List.length_nil] at this
          exact List.eq_nil_of_length_eq_zero (by omega)
        have hheld0 : e.held = [] := by
          have := congrArg List.length h0
          simp only [List.length_append, List.length_nil] at this
          exact List.eq_nil_of_length_eq_zero (by omega)
        exact ⟨hrs, 0, by omega,
          by simp [encVals, pendingVals, hmf, hlit0, hheld0, hbuf0]⟩
      · rw [if_neg hl]
        have hne : e.lit ++ e.held ++ ([] : List Nat) ≠ [] := by
          intro hc
          rw [hc] at hl
          simp at hl
        refine ⟨?_, 0, by omega, ?_⟩
        · intro r hr
          simp only [List.mem_append, List.mem_singleton] at hr
          rcases hr with hr | hr
          · exact hrs r hr
          · subst hr
            refine ⟨hne, ?_, ?_⟩
            · simp only [List.length_append, List.length_nil]
              omega
            · simp only [List.length_append, List.length_nil]
              unfold INT32MAX
              omega
        · simp [encVals, pendingVals, hmf, hbuf0, List.append_assoc, runValues]
    · have hbufne : e.buf ≠ [] := by
        intro hc
        rw [hc] at hbe
        simp at hbe
      have hbufpos : 1 ≤ e.buf.length := List.length_pos.2 hbufne
      rw [if_neg hbe]
      have hlne : e.lit ++ e.held ++ (e.buf ++ List.replicate (8 - e.buf.length) 0)
          ≠ [] := by
        intro hc
        have := congrArg List.length hc
        simp only [List.length_append, List.length_replicate, List.length_nil]
          at this
        omega
      rw [if_neg (by simpa [List.isEmpty_iff] using hlne)]
      refine ⟨?_, 8 - e.buf.length, by omega, ?_⟩
      · intro r hr
        simp only [List.mem_append, List.mem_singleton] at hr
        rcases hr with hr | hr
        · exact hrs r hr
        · subst hr
          refine ⟨hlne, ?_, ?_⟩
          · simp only [List.length_append, List.length_replicate]
            omega
          · simp only [List.length_append, List.length_replicate]
            unfold INT32MAX
            omega
      · simp [encVals, pendingVals, hmf, List.append_assoc, runValues]

theorem foldl_putRaw (minRun : Nat) (hm8 : minRun % 8 = 0)
    (hm32 : minRun ≤ MAX_RUN_LENGTH_BUFFER) (vs : List Nat) :
    ∀ e : Enc, EncInv minRun e →
      EncInv minRun (vs.foldl (PutRaw minRun) e) ∧
      encVals (vs.foldl (PutRaw minRun) e) = encVals e ++ vs := by
  induction vs with
  | nil => intro e he; exact ⟨he, by simp⟩
  | cons v vs ih =>
    intro e he
    obtain ⟨h1, h2⟩ := putRaw_spec minRun hm8 hm32 e v he
    obtain ⟨h3, h4⟩ := ih (PutRaw minRun e v) h1
    refine ⟨h3, ?_⟩
    simp only [List.foldl_cons] at h4 ⊢
    rw [h4, h2]
    simp

/-- The encoder's run decomposition: well-shaped runs flattening to the input
values plus up to 7 zero-padding values. -/
theorem encodeRuns_spec (minRun : Nat) (hm8 : minRun % 8 = 0)
    (hm32 : minRun ≤ MAX_RUN_LENGTH_BUFFER) (vs : List Nat) :
    (∀ r ∈ encodeRuns minRun vs, RunShape r) ∧
    ∃ p, p < 8 ∧ runsValues (encodeRuns minRun vs) = vs ++ List.replicate p 0 := by
  unfold encodeRuns
  obtain ⟨h1, h2⟩ := foldl_putRaw minRun hm8 hm32 vs encInit (encInv_init minRun)
  obtain ⟨h3, p, hp, h4⟩ := flush_spec minRun hm32 _ h1
  refine ⟨h3, p, hp, ?_⟩
  rw [h4, h2]
  have : encVals encInit = [] := by simp [encVals, pendingVals, encInit, runsValues]
  rw [this]
  simp

theorem mem_runValues_of_mem_runs (rs : List Run) (r : Run) (hr : r ∈ rs)
    (x : Nat) (hx : x ∈ runValues r) : x ∈ runsValues rs := by
  induction rs with
  | nil => simp at hr
  | cons q qs ih =>
    rcases List.mem_cons.1 hr with h | h
    · subst h
      rw [runsValues_cons]
      exact List.mem_append.2 (Or.inl hx)
    · rw [runsValues_cons]
      exact List.mem_append.2 (Or.inr (ih h))

/-- The encoder's runs are fully well-formed when the fed values fit the bit
width. -/
theorem encodeRuns_wf (w minRun : Nat) (hm8 : minRun % 8 = 0)
    (hm32 : minRun ≤ MAX_RUN_LENGTH_BUFFER) (vs : List Nat)
    (hv : ∀ x ∈ vs, x < 2 ^ w) :
    ∀ r ∈ encodeRuns minRun vs, RunWF w r := by
  obtain ⟨hshape, p, hp, hflat⟩ := encodeRuns_spec minRun hm8 hm32 vs
  have hval : ∀ x ∈ runsValues (encodeRuns minRun vs), x < 2 ^ w := by
    intro x hx
    rw [hflat] at hx
    rcases List.mem_append.1 hx with h | h
    · exact hv x h
    · have : x = 0 := List.eq_of_mem_replicate h
      subst this
      exact Nat.pos_pow_of_pos w (by norm_num)
  intro r hr
  have hs := hshape r hr
  cases r with
  | rep n v =>
    obtain ⟨hn1, hn2⟩ := hs
    refine ⟨hn1, hn2, ?_⟩
    apply hval
    apply mem_runValues_of_mem_runs _ _ hr
    simp only [runValues]
    exact List.mem_replicate.2 ⟨by omega, rfl⟩
  | lit l =>
    obtain ⟨hn1, hn2, hn3⟩ := hs
    refine ⟨hn1, hn2, hn3, ?_⟩
    intro x hx
    apply hval
    exact mem_runValues_of_mem_runs _ _ hr x hx

end Rle

namespace Rle

/-- Well-formed serialized streams: a concatenation of well-formed runs. -/
inductive StreamWF (w : Nat) : List Nat → Prop
  | nil : StreamWF w []
  | cons (r : Run) (rest : List Nat) : RunWF w r → StreamWF w rest →
      StreamWF w (serializeRun w r ++ rest)

/-- Decoder states reachable while decoding a well-formed stream. -/
def DecWF (d : Dec) : Prop :=
  match d.run with
  | .pend => StreamWF d.w d.bytes
  | .exhausted => True
  | .rep rem _ => 1 ≤ rem ∧ StreamWF d.w d.bytes
  | .lit rem payload bitpos =>
      (∃ l i, RunWF d.w (.lit l) ∧ i < l.length ∧ rem = l.length - i ∧
        payload = litPayload d.w l ∧ bitpos = i * d.w) ∧ StreamWF d.w d.bytes

theorem parseHeader_nil (w : Nat) :
    parseHeader ⟨w, [], .pend⟩ = ⟨w, [], .exhausted⟩ := rfl

theorem serialize_streamWF (w : Nat) (rs : List Run) (h : ∀ r ∈ rs, RunWF w r) :
    StreamWF w (serialize w rs) := by
  induction rs with
  | nil => exact StreamWF.nil
  | cons r rest ih =>
    rw [serialize_cons]
    exact StreamWF.cons r _ (h r (List.mem_cons_self r rest))
      (ih fun q hq => h q (List.mem_cons_of_mem r hq))

theorem parseHeader_wf (w : Nat) (B : List Nat) (h : StreamWF w B) :
    DecWF (parseHeader ⟨w, B, .pend⟩) := by
  cases h with
  | nil => rw [parseHeader_nil]; trivial
  | cons r rest hr hrest =>
    cases r with
    | rep n v =>
      obtain ⟨h1, h2, h3⟩ := hr
      rw [parseHeader_rep w n v rest h1 h2 h3]
      exact ⟨h1, hrest⟩
    | lit l =>
      obtain ⟨h1, h2, h3, h4⟩ := hr
      rw [parseHeader_lit w l rest h1 h2 h3]
      refine ⟨⟨l, 0, ⟨h1, h2, h3, h4⟩, ?_, by omega, rfl, by omega⟩, hrest⟩
      have : l.length ≠ 0 := fun hh => h1 (List.eq_nil_of_length_eq_zero hh)
      omega

theorem ensure_wf (d : Dec) (h : DecWF d) : DecWF (ensure d) := by
  rcases d with ⟨w, B, run⟩
  match hr : run with
  | .pend => exact parseHeader_wf w B h
  | .exhausted => exact h
  | .rep rem v => exact h
  | .lit rem p bp => exact h

theorem singles_ensure (n : Nat) (hn : 1 ≤ n) (d : Dec) :
    singles n d = singles n (ensure d) := by
  rcases d with ⟨w, B, run⟩
  match hr : run with
  | .pend => exact singles_pend n hn w B
  | .exhausted => rfl
  | .rep rem v => rfl
  | .lit rem p bp => rfl

/-! Unfolding lemmas for the chunked decoder operations. -/

theorem GetValues_exhausted (m w : Nat) (B : List Nat) :
    GetValues (m + 1) ⟨w, B, .exhausted⟩ = ([], ⟨w, B, .exhausted⟩) := by
  rw [GetValues]; simp only [ensure]

theorem GetValues_pend (m : Nat) (d : Dec) (h : d.run = .pend) :
    GetValues (m + 1) d = GetValues (m + 1) (parseHeader d) := by
  have he : ensure d = parseHeader d := by unfold ensure; rw [h]
  have he2 : ensure (parseHeader d) = parseHeader d :=
    ensure_of_ne_pend _ (parseHeader_ne_pend d)
  rw [GetValues, GetValues, he, he2]

theorem GetValues_rep (m w : Nat) (B : List Nat) (rem v : Nat) (h : 1 ≤ rem) :
    GetValues (m + 1) ⟨w, B, .rep rem v⟩ =
      (List.replicate (min rem (m + 1)) v ++
        (GetValues (m + 1 - min rem (m + 1))
          ⟨w, B, if rem ≤ min rem (m + 1) then .pend
                 else .rep (rem - min rem (m + 1)) v⟩).1,
       (GetValues (m + 1 - min rem (m + 1))
          ⟨w, B, if rem ≤ min rem (m + 1) then .pend
                 else .rep (rem - min rem (m + 1)) v⟩).2) := by
  rw [GetValues]
  simp only [ensure, GetRepeatedValue, Nat.max_eq_left h]

theorem GetValues_lit (m w : Nat) (B : List Nat) (rem : Nat)
    (payload : List Nat) (bitpos : Nat) (h : 1 ≤ rem)
    (hfit : bitpos + min rem (m + 1) * w ≤ 8 * payload.length) :
    GetValues (m + 1) ⟨w, B, .lit rem payload bitpos⟩ =
      ((List.range (min rem (m + 1))).map
          (fun j => litRead payload (bitpos + j * w) w) ++
        (GetValues (m + 1 - min rem (m + 1))
          ⟨w, B, if rem ≤ min rem (m + 1) then .pend
                 else .lit (rem - min rem (m + 1)) payload
                   (bitpos + min rem (m + 1) * w)⟩).1,
       (GetValues (m + 1 - min rem (m + 1))
          ⟨w, B, if rem ≤ min rem (m + 1) then .pend
                 else .lit (rem - min rem (m + 1)) payload
                   (bitpos + min rem (m + 1) * w)⟩).2) := by
  rw [GetValues]
  simp only [ensure, GetLiteralValues, Nat.max_eq_left h, if_pos hfit]

/-- The chunked bulk read `GetValues` agrees with iterated per-value reads on
well-formed decoder states. -/
theorem GetValues_eq_singles :
    ∀ (n : Nat) (d : Dec), DecWF d → GetValues n d = singles n d := by
  intro n
  induction n using Nat.strong_induction_on with
  | _ n ih =>
    cases n with
    | zero => intro d _; rw [GetValues]; rfl
    | succ m =>
      intro d hd
      have hd' : DecWF (ensure d) := ensure_wf d hd
      have hGe : GetValues (m + 1) d = GetValues (m + 1) (ensure d) := by
        rcases d with ⟨w, B, run⟩
        cases run with
        | pend => exact GetValues_pend m ⟨w, B, .pend⟩ rfl
        | exhausted => rfl
        | rep rem v => rfl
        | lit rem p bp => rfl
      have hne : (ensure d).run ≠ .pend := by
        rcases d with ⟨w, B, run⟩
        cases run with
        | pend => exact parseHeader_ne_pend ⟨w, B, .pend⟩
        | exhausted => simp [ensure]
        | rep rem v => simp [ensure]
        | lit rem p bp => simp [ensure]
      rw [hGe, singles_ensure (m + 1) (by omega) d]
      rcases hE : ensure d with ⟨w, B, run⟩
      rw [hE] at hd' hne
      cases run with
      | pend => exact absurd rfl hne
      | exhausted =>
        rw [GetValues_exhausted, singles_stuck (m + 1) _ (GetSingleValue_exhausted w B)]
      | rep rem v =>
        dsimp only [DecWF] at hd'
        obtain ⟨hrem, hstream⟩ := hd'
        have hk1 : 1 ≤ min rem (m + 1) := by omega
        have hkr : min rem (m + 1) ≤ rem := Nat.min_le_left _ _
        have hd2 : DecWF ⟨w, B, if rem ≤ min rem (m + 1) then .pend
            else .rep (rem - min rem (m + 1)) v⟩ := by
          by_cases hc : rem ≤ min rem (m + 1)
          · simpa [DecWF, hc] using hstream
          · simp only [DecWF, if_neg hc]
            exact ⟨by omega, hstream⟩
        have hrec := ih (m + 1 - min rem (m + 1)) (by omega) _ hd2
        have hsing : singles (m + 1) ⟨w, B, .rep rem v⟩ =
            (List.replicate (min rem (m + 1)) v ++
              (singles (m + 1 - min rem (m + 1))
                ⟨w, B, if rem ≤ min rem (m + 1) then .pend
                       else .rep (rem - min rem (m + 1)) v⟩).1,
             (singles (m + 1 - min rem (m + 1))
                ⟨w, B, if rem ≤ min rem (m + 1) then .pend
                       else .rep (rem - min rem (m + 1)) v⟩).2) := by
          nth_rewrite 1 [show m + 1 = min rem (m + 1) + (m + 1 - min rem (m + 1)) from by omega]
          rw [singles_add (min rem (m + 1)) (m + 1 - min rem (m + 1)),
            singles_rep (min rem (m + 1)) w B rem v hrem hkr]
        rw [GetValues_rep m w B rem v hrem, hsing, hrec]
      | lit rem payload bitpos =>
        dsimp only [DecWF] at hd'
        obtain ⟨⟨l, i, hwl, hi, hrem, hpay, hbit⟩, hstream⟩ := hd'
        obtain ⟨hl1, hl2, hl4, hl5⟩ := hwl
        subst hrem; subst hpay; subst hbit
        have hrem1 : 1 ≤ l.length - i := by omega
        have hik : i + min (l.length - i) (m + 1) ≤ l.length := by omega
        have hplen : (litPayload w l).length = l.length / 8 * w := by
          unfold litPayload; exact length_natToBytesLE _ _
        have hfit : i * w + min (l.length - i) (m + 1) * w ≤
            8 * (litPayload w l).length := by
          rw [hplen]
          have h8 : 8 * (l.length / 8 * w) = l.length * w := by
            have : 8 * (l.length / 8) = l.length := by omega
            calc 8 * (l.length / 8 * w) = 8 * (l.length / 8) * w := by ring
              _ = l.length * w := by rw [this]
          rw [h8, ← Nat.add_mul]
          exact Nat.mul_le_mul_right w hik
        have hstate : (⟨w, B, if l.length - i ≤ min (l.length - i) (m + 1) then .pend
              else .lit (l.length - i - min (l.length - i) (m + 1)) (litPayload w l)
                (i * w + min (l.length - i) (m + 1) * w)⟩ : Dec) =
            ⟨w, B, if l.length ≤ i + min (l.length - i) (m + 1) ∧
                  0 < min (l.length - i) (m + 1) then .pend
              else .lit (l.length - (i + min (l.length - i) (m + 1))) (litPayload w l)
                ((i + min (l.length - i) (m + 1)) * w)⟩ := by
          by_cases hc : l.length ≤ i + min (l.length - i) (m + 1)
          · rw [if_pos (by omega), if_pos ⟨hc, by omega⟩]
          · rw [if_neg (by omega), if_neg (fun h => hc h.1)]
            have h1 : l.length - i - min (l.length - i) (m + 1) =
                l.length - (i + min (l.length - i) (m + 1)) := by omega
            have h2 : i * w + min (l.length - i) (m + 1) * w =
                (i + min (l.length - i) (m + 1)) * w := (Nat.add_mul i _ w).symm
            rw [h1, h2]
        have hd2 : DecWF ⟨w, B, if l.length ≤ i + min (l.length - i) (m + 1) ∧
              0 < min (l.length - i) (m + 1) then .pend
            else .lit (l.length - (i + min (l.length - i) (m + 1))) (litPayload w l)
              ((i + min (l.length - i) (m + 1)) * w)⟩ := by
          by_cases hc : l.length ≤ i + min (l.length - i) (m + 1)
          · simpa [DecWF, hc, show 0 < min (l.length - i) (m + 1) from by omega]
              using hstream
          · rw [if_neg (fun h => hc h.1)]
            refine ⟨⟨l, i + min (l.length - i) (m + 1), ⟨hl1, hl2, hl4, hl5⟩,
              by omega, rfl, rfl, rfl⟩, hstream⟩
        have hrec := ih (m + 1 - min (l.length - i) (m + 1)) (by omega) _ hd2
        have hsing : singles (m + 1)
              ⟨w, B, .lit (l.length - i) (litPayload w l) (i * w)⟩ =
            ((List.range (min (l.length - i) (m + 1))).map (fun j => l.getD (i + j) 0) ++
              (singles (m + 1 - min (l.length - i) (m + 1))
                ⟨w, B, if l.length ≤ i + min (l.length - i) (m + 1) ∧
                      0 < min (l.length - i) (m + 1) then .pend
                  else .lit (l.length - (i + min (l.length - i) (m + 1))) (litPayload w l)
                    ((i + min (l.length - i) (m + 1)) * w)⟩).1,
             (singles (m + 1 - min (l.length - i) (m + 1))
                ⟨w, B, if l.length ≤ i + min (l.length - i) (m + 1) ∧
                      0 < min (l.length - i) (m + 1) then .pend
                  else .lit (l.length - (i + min (l.length - i) (m + 1))) (litPayload w l)
                    ((i + min (l.length - i) (m + 1)) * w)⟩).2) := by
          nth_rewrite 1 [show m + 1 =
            min (l.length - i) (m + 1) + (m + 1 - min (l.length - i) (m + 1)) from by omega]
          rw [singles_add (min (l.length - i) (m + 1)) (m + 1 - min (l.length - i) (m + 1)),
            singles_lit w B l hl2 hl5 (min (l.length - i) (m + 1)) i hik]
        have hmap : (List.range (min (l.length - i) (m + 1))).map
              (fun j => litRead (litPayload w l) (i * w + j * w) w) =
            (List.range (min (l.length - i) (m + 1))).map (fun j => l.getD (i + j) 0) := by
          apply List.map_congr_left
          intro j hj
          have hj' : j < min (l.length - i) (m + 1) := List.mem_range.mp hj
          have hmul : i * w + j * w = (i + j) * w := (Nat.add_mul i j w).symm
          rw [hmul, litRead_litPayload w l (i + j) hl2 hl5 (by omega)]
        rw [GetValues_lit m w B (l.length - i) (litPayload w l) (i * w) hrem1 hfit,
          hstate, hrec, hsing, hmap]

theorem SkipValues_exhausted (m w : Nat) (B : List Nat) :
    SkipValues (m + 1) ⟨w, B, .exhausted⟩ = (0, ⟨w, B, .exhausted⟩) := by
  rw [SkipValues]; simp only [ensure]

theorem SkipValues_pend (m : Nat) (d : Dec) (h : d.run = .pend) :
    SkipValues (m + 1) d = SkipValues (m + 1) (parseHeader d) := by
  have he : ensure d = parseHeader d := by unfold ensure; rw [h]
  have he2 : ensure (parseHeader d) = parseHeader d :=
    ensure_of_ne_pend _ (parseHeader_ne_pend d)
  rw [SkipValues, SkipValues, he, he2]

theorem SkipValues_rep (m w : Nat) (B : List Nat) (rem v : Nat) (h : 1 ≤ rem) :
    SkipValues (m + 1) ⟨w, B, .rep rem v⟩ =
      (min rem (m + 1) +
        (SkipValues (m + 1 - min rem (m + 1))
          ⟨w, B, if rem ≤ min rem (m + 1) then .pend
                 else .rep (rem - min rem (m + 1)) v⟩).1,
       (SkipValues (m + 1 - min rem (m + 1))
          ⟨w, B, if rem ≤ min rem (m + 1) then .pend
                 else .rep (rem - min rem (m + 1)) v⟩).2) := by
  rw [SkipValues]
  simp only [ensure, GetRepeatedValue, Nat.max_eq_left h]

theorem SkipValues_lit (m w : Nat) (B : List Nat) (rem : Nat)
    (payload : List Nat) (bitpos : Nat) (h : 1 ≤ rem)
    (hfit : bitpos + min rem (m + 1) * w ≤ 8 * payload.length) :
    SkipValues (m + 1) ⟨w, B, .lit rem payload bitpos⟩ =
      (min rem (m + 1) +
        (SkipValues (m + 1 - min rem (m + 1))
          ⟨w, B, if rem ≤ min rem (m + 1) then .pend
                 else .lit (rem - min rem (m + 1)) payload
                   (bitpos + min rem (m + 1) * w)⟩).1,
       (SkipValues (m + 1 - min rem (m + 1))
          ⟨w, B, if rem ≤ min rem (m + 1) then .pend
                 else .lit (rem - min rem (m + 1)) payload
                   (bitpos + min rem (m + 1) * w)⟩).2) := by
  rw [SkipValues]
  simp only [ensure, GetLiteralValues, Nat.max_eq_left h, if_pos hfit]

/-- `SkipValues` agrees with iterated per-value reads on well-formed decoder
states: it skips exactly the values `singles` would produce and lands in the
same state. -/
theorem SkipValues_eq_singles :
    ∀ (n : Nat) (d : Dec), DecWF d →
      SkipValues n d = ((singles n d).1.length, (singles n d).2) := by
  intro n
  induction n using Nat.strong_induction_on with
  | _ n ih =>
    cases n with
    | zero => intro d _; rw [SkipValues]; rfl
    | succ m =>
      intro d hd
      have hd' : DecWF (ensure d) := ensure_wf d hd
      have hGe : SkipValues (m + 1) d = SkipValues (m + 1) (ensure d) := by
        rcases d with ⟨w, B, run⟩
        cases run with
        | pend => exact SkipValues_pend m ⟨w, B, .pend⟩ rfl
        | exhausted => rfl
        | rep rem v => rfl
        | lit rem p bp => rfl
      have hne : (ensure d).run ≠ .pend := by
        rcases d with ⟨w, B, run⟩
        cases run with
        | pend => exact parseHeader_ne_pend ⟨w, B, .pend⟩
        | exhausted => simp [ensure]
        | rep rem v => simp [ensure]
        | lit rem p bp => simp [ensure]
      rw [hGe, singles_ensure (m + 1) (by omega) d]
      rcases hE : ensure d with ⟨w, B, run⟩
      rw [hE] at hd' hne
      cases run with
      | pend => exact absurd rfl hne
      | exhausted =>
        rw [SkipValues_exhausted, singles_stuck (m + 1) _ (GetSingleValue_exhausted w B)]
        rfl
      | rep rem v =>
        dsimp only [DecWF] at hd'
        obtain ⟨hrem, hstream⟩ := hd'
        have hk1 : 1 ≤ min rem (m + 1) := by omega
        have hkr : min rem (m + 1) ≤ rem := Nat.min_le_left _ _
        have hd2 : DecWF ⟨w, B, if rem ≤ min rem (m + 1) then .pend
            else .rep (rem - min rem (m + 1)) v⟩ := by
          by_cases hc : rem ≤ min rem (m + 1)
          · simpa [DecWF, hc] using hstream
          · simp only [DecWF, if_neg hc]
            exact ⟨by omega, hstream⟩
        have hrec := ih (m + 1 - min rem (m + 1)) (by omega) _ hd2
        have hsing : singles (m + 1) ⟨w, B, .rep rem v⟩ =
            (List.replicate (min rem (m + 1)) v ++
              (singles (m + 1 - min rem (m + 1))
                ⟨w, B, if rem ≤ min rem (m + 1) then .pend
                       else .rep (rem - min rem (m + 1)) v⟩).1,
             (singles (m + 1 - min rem (m + 1))
                ⟨w, B, if rem ≤ min rem (m + 1) then .pend
                       else .rep (rem - min rem (m + 1)) v⟩).2) := by
          nth_rewrite 1 [show m + 1 = min rem (m + 1) + (m + 1 - min rem (m + 1)) from by omega]
          rw [singles_add (min rem (m + 1)) (m + 1 - min rem (m + 1)),
            singles_rep (min rem (m + 1)) w B rem v hrem hkr]
        rw [SkipValues_rep m w B rem v hrem, hsing, hrec]
        simp
      | lit rem payload bitpos =>
        dsimp only [DecWF] at hd'
        obtain ⟨⟨l, i, hwl, hi, hrem, hpay, hbit⟩, hstream⟩ := hd'
        obtain ⟨hl1, hl2, hl4, hl5⟩ := hwl
        subst hrem; subst hpay; subst hbit
        have hrem1 : 1 ≤ l.length - i := by omega
        have hik : i + min (l.length - i) (m + 1) ≤ l.length := by omega
        have hplen : (litPayload w l).length = l.length / 8 * w := by
          unfold litPayload; exact length_natToBytesLE _ _
        have hfit : i * w + min (l.length - i) (m + 1) * w ≤
            8 * (litPayload w l).length := by
          rw [hplen]
          have h8 : 8 * (l.length / 8 * w) = l.length * w := by
            have : 8 * (l.length / 8) = l.length := by omega
            calc 8 * (l.length / 8 * w) = 8 * (l.length / 8) * w := by ring
              _ = l.length * w := by rw [this]
          rw [h8, ← Nat.add_mul]
          exact Nat.mul_le_mul_right w hik
        have hstate : (⟨w, B, if l.length - i ≤ min (l.length - i) (m + 1) then .pend
              else .lit (l.length - i - min (l.length - i) (m + 1)) (litPayload w l)
                (i * w + min (l.length - i) (m + 1) * w)⟩ : Dec) =
            ⟨w, B, if l.length ≤ i + min (l.length - i) (m + 1) ∧
                  0 < min (l.length - i) (m + 1) then .pend
              else .lit (l.length - (i + min (l.length - i) (m + 1))) (litPayload w l)
                ((i + min (l.length - i) (m + 1)) * w)⟩ := by
          by_cases hc : l.length ≤ i + min (l.length - i) (m + 1)
          · rw [if_pos (by omega), if_pos ⟨hc, by omega⟩]
          · rw [if_neg (by omega), if_neg (fun h => hc h.1)]
            have h1 : l.length - i - min (l.length - i) (m + 1) =
                l.length - (i + min (l.length - i) (m + 1)) := by omega
            have h2 : i * w + min (l.length - i) (m + 1) * w =
                (i + min (l.length - i) (m + 1)) * w := (Nat.add_mul i _ w).symm
            rw [h1, h2]
        have hd2 : DecWF ⟨w, B, if l.length ≤ i + min (l.length - i) (m + 1) ∧
              0 < min (l.length - i) (m + 1) then .pend
            else .lit (l.length - (i + min (l.length - i) (m + 1))) (litPayload w l)
              ((i + min (l.length - i) (m + 1)) * w)⟩ := by
          by_cases hc : l.length ≤ i + min (l.length - i) (m + 1)
          · simpa [DecWF, hc, show 0 < min (l.length - i) (m + 1) from by omega]
              using hstream
          · rw [if_neg (fun h => hc h.1)]
            refine ⟨⟨l, i + min (l.length - i) (m + 1), ⟨hl1, hl2, hl4, hl5⟩,
              by omega, rfl, rfl, rfl⟩, hstream⟩
        have hrec := ih (m + 1 - min (l.length - i) (m + 1)) (by omega) _ hd2
        have hsing : singles (m + 1)
              ⟨w, B, .lit (l.length - i) (litPayload w l) (i * w)⟩ =
            ((List.range (min (l.length - i) (m + 1))).map (fun j => l.getD (i + j) 0) ++
              (singles (m + 1 - min (l.length - i) (m + 1))
                ⟨w, B, if l.length ≤ i + min (l.length - i) (m + 1) ∧
                      0 < min (l.length - i) (m + 1) then .pend
                  else .lit (l.length - (i + min (l.length - i) (m + 1))) (litPayload w l)
                    ((i + min (l.length - i) (m + 1)) * w)⟩).1,
             (singles (m + 1 - min (l.length - i) (m + 1))
                ⟨w, B, if l.length ≤ i + min (l.length - i) (m + 1) ∧
                      0 < min (l.length - i) (m + 1) then .pend
                  else .lit (l.length - (i + min (l.length - i) (m + 1))) (litPayload w l)
                    ((i + min (l.length - i) (m + 1)) * w)⟩).2) := by
          nth_rewrite 1 [show m + 1 =
            min (l.length - i) (m + 1) + (m + 1 - min (l.length - i) (m + 1)) from by omega]
          rw [singles_add (min (l.length - i) (m + 1)) (m + 1 - min (l.length - i) (m + 1)),
            singles_lit w B l hl2 hl5 (min (l.length - i) (m + 1)) i hik]
        rw [SkipValues_lit m w B (l.length - i) (litPayload w l) (i * w) hrem1 hfit,
          hstate, hrec, hsing]
        simp

/-- The test harness's per-run decoding loop agrees with iterated per-value
reads whenever the requested count is actually available: it succeeds and
returns exactly the values `singles` would produce, landing in the same
state. -/
theorem GetRleValues_eq_singles :
    ∀ (n : Nat) (d : Dec), DecWF d → (singles n d).1.length = n →
      GetRleValues n d = (some (singles n d).1, (singles n d).2) := by
  intro n
  induction n using Nat.strong_induction_on with
  | _ n ih =>
    cases n with
    | zero => intro d _ _; rw [GetRleValues]; rfl
    | succ m =>
      intro d hd hlen
      have hd' : DecWF (ensure d) := ensure_wf d hd
      have hGe : GetRleValues (m + 1) d = GetRleValues (m + 1) (ensure d) := by
        rcases d with ⟨w, B, run⟩
        cases run with
        | pend =>
          have he : ensure ⟨w, B, .pend⟩ = parseHeader ⟨w, B, .pend⟩ := rfl
          have hp : NextNumRepeats ⟨w, B, .pend⟩ =
              NextNumRepeats (parseHeader ⟨w, B, .pend⟩) := by
            unfold NextNumRepeats
            rw [ensure_of_ne_pend _ (parseHeader_ne_pend ⟨w, B, .pend⟩)]
            rfl
          rw [he, GetRleValues, GetRleValues, hp]
        | exhausted => rfl
        | rep rem v => rfl
        | lit rem p bp => rfl
      have hne : (ensure d).run ≠ .pend := by
        rcases d with ⟨w, B, run⟩
        cases run with
        | pend => exact parseHeader_ne_pend ⟨w, B, .pend⟩
        | exhausted => simp [ensure]
        | rep rem v => simp [ensure]
        | lit rem p bp => simp [ensure]
      rw [singles_ensure (m + 1) (by omega) d] at hlen ⊢
      rw [hGe]
      rcases hE : ensure d with ⟨w, B, run⟩
      rw [hE] at hd' hne hlen
      cases run with
      | pend => exact absurd rfl hne
      | exhausted =>
        rw [singles_stuck (m + 1) _ (GetSingleValue_exhausted w B)] at hlen
        exact absurd hlen (by simp)
      | rep rem v =>
        dsimp only [DecWF] at hd'
        obtain ⟨hrem, hstream⟩ := hd'
        have hk1 : 1 ≤ min rem (m + 1) := by omega
        have hkr : min rem (m + 1) ≤ rem := Nat.min_le_left _ _
        have hd2 : DecWF ⟨w, B, if rem ≤ min rem (m + 1) then .pend
            else .rep (rem - min rem (m + 1)) v⟩ := by
          by_cases hc : rem ≤ min rem (m + 1)
          · simpa [DecWF, hc] using hstream
          · simp only [DecWF, if_neg hc]
            exact ⟨by omega, hstream⟩
        have hsing : singles (m + 1) ⟨w, B, .rep rem v⟩ =
            (List.replicate (min rem (m + 1)) v ++
              (singles (m + 1 - min rem (m + 1))
                ⟨w, B, if rem ≤ min rem (m + 1) then .pend
                       else .rep (rem - min rem (m + 1)) v⟩).1,
             (singles (m + 1 - min rem (m + 1))
                ⟨w, B, if rem ≤ min rem (m + 1) then .pend
                       else .rep (rem - min rem (m + 1)) v⟩).2) := by
          nth_rewrite 1 [show m + 1 = min rem (m + 1) + (m + 1 - min rem (m + 1)) from by omega]
          rw [singles_add (min rem (m + 1)) (m + 1 - min rem (m + 1)),
            singles_rep (min rem (m + 1)) w B rem v hrem hkr]
        have hlen2 : (singles (m + 1 - min rem (m + 1))
            ⟨w, B, if rem ≤ min rem (m + 1) then .pend
                   else .rep (rem - min rem (m + 1)) v⟩).1.length =
            m + 1 - min rem (m + 1) := by
          rw [hsing] at hlen
          simp only [List.length_append, List.length_replicate] at hlen
          omega
        have hrec := ih (m + 1 - min rem (m + 1)) (by omega) _ hd2 hlen2
        rw [GetRleValues]
        simp only [NextNumRepeats, ensure]
        rw [dif_pos (show 0 < rem from hrem)]
        simp only [GetRepeatedValue]
        rw [hrec, hsing]
      | lit rem payload bitpos =>
        dsimp only [DecWF] at hd'
        obtain ⟨⟨l, i, hwl, hi, hrem, hpay, hbit⟩, hstream⟩ := hd'
        obtain ⟨hl1, hl2, hl4, hl5⟩ := hwl
        subst hrem; subst hpay; subst hbit
        have hrem1 : 1 ≤ l.length - i := by omega
        have hik : i + min (l.length - i) (m + 1) ≤ l.length := by omega
        have hplen : (litPayload w l).length = l.length / 8 * w := by
          unfold litPayload; exact length_natToBytesLE _ _
        have hfit : i * w + min (l.length - i) (m + 1) * w ≤
            8 * (litPayload w l).length := by
          rw [hplen]
          have h8 : 8 * (l.length / 8 * w) = l.length * w := by
            have : 8 * (l.length / 8) = l.length := by omega
            calc 8 * (l.length / 8 * w) = 8 * (l.length / 8) * w := by ring
              _ = l.length * w := by rw [this]
          rw [h8, ← Nat.add_mul]
          exact Nat.mul_le_mul_right w hik
        have hstate : (⟨w, B, if l.length - i ≤ min (l.length - i) (m + 1) then .pend
              else .lit (l.length - i - min (l.length - i) (m + 1)) (litPayload w l)
                (i * w + min (l.length - i) (m + 1) * w)⟩ : Dec) =
            ⟨w, B, if l.length ≤ i + min (l.length - i) (m + 1) ∧
                  0 < min (l.length - i) (m + 1) then .pend
              else .lit (l.length - (i + min (l.length - i) (m + 1))) (litPayload w l)
                ((i + min (l.length - i) (m + 1)) * w)⟩ := by
          by_cases hc : l.length ≤ i + min (l.length - i) (m + 1)
          · rw [if_pos (by omega), if_pos ⟨hc, by omega⟩]
          · rw [if_neg (by omega), if_neg (fun h => hc h.1)]
            have h1 : l.length - i - min (l.length - i) (m + 1) =
                l.length - (i + min (l.length - i) (m + 1)) := by omega
            have h2 : i * w + min (l.length - i) (m + 1) * w =
                (i + min (l.length - i) (m + 1)) * w := (Nat.add_mul i _ w).symm
            rw [h1, h2]
        have hd2 : DecWF ⟨w, B, if l.length ≤ i + min (l.length - i) (m + 1) ∧
              0 < min (l.length - i) (m + 1) then .pend
            else .lit (l.length - (i + min (l.length - i) (m + 1))) (litPayload w l)
              ((i + min (l.length - i) (m + 1)) * w)⟩ := by
          by_cases hc : l.length ≤ i + min (l.length - i) (m + 1)
          · simpa [DecWF, hc, show 0 < min (l.length - i) (m + 1) from by omega]
              using hstream
          · rw [if_neg (fun h => hc h.1)]
            refine ⟨⟨l, i + min (l.length - i) (m + 1), ⟨hl1, hl2, hl4, hl5⟩,
              by omega, rfl, rfl, rfl⟩, hstream⟩
        have hsing : singles (m + 1)
              ⟨w, B, .lit (l.length - i) (litPayload w l) (i * w)⟩ =
            ((List.range (min (l.length - i) (m + 1))).map (fun j => l.getD (i + j) 0) ++
              (singles (m + 1 - min (l.length - i) (m + 1))
                ⟨w, B, if l.length ≤ i + min (l.length - i) (m + 1) ∧
                      0 < min (l.length - i) (m + 1) then .pend
                  else .lit (l.length - (i + min (l.length - i) (m + 1))) (litPayload w l)
                    ((i + min (l.length - i) (m + 1)) * w)⟩).1,
             (singles (m + 1 - min (l.length - i) (m + 1))
                ⟨w, B, if l.length ≤ i + min (l.length - i) (m + 1) ∧
                      0 < min (l.length - i) (m + 1) then .pend
                  else .lit (l.length - (i + min (l.length - i) (m + 1))) (litPayload w l)
                    ((i + min (l.length - i) (m + 1)) * w)⟩).2) := by
          nth_rewrite 1 [show m + 1 =
            min (l.length - i) (m + 1) + (m + 1 - min (l.length - i) (m + 1)) from by omega]
          rw [singles_add (min (l.length - i) (m + 1)) (m + 1 - min (l.length - i) (m + 1)),
            singles_lit w B l hl2 hl5 (min (l.length - i) (m + 1)) i hik]
        have hmap : (List.range (min (l.length - i) (m + 1))).map
              (fun j => litRead (litPayload w l) (i * w + j * w) w) =
            (List.range (min (l.length - i) (m + 1))).map (fun j => l.getD (i + j) 0) := by
          apply List.map_congr_left
          intro j hj
          have hj' : j < min (l.length - i) (m + 1) := List.mem_range.mp hj
          have hmul : i * w + j * w = (i + j) * w := (Nat.add_mul i j w).symm
          rw [hmul, litRead_litPayload w l (i + j) hl2 hl5 (by omega)]
        have hlen2 : (singles (m + 1 - min (l.length - i) (m + 1))
            ⟨w, B, if l.length ≤ i + min (l.length - i) (m + 1) ∧
                  0 < min (l.length - i) (m + 1) then .pend
              else .lit (l.length - (i + min (l.length - i) (m + 1))) (litPayload w l)
                ((i + min (l.length - i) (m + 1)) * w)⟩).1.length =
            m + 1 - min (l.length - i) (m + 1) := by
          rw [hsing] at hlen
          simp only [List.length_append, List.length_map, List.length_range] at hlen
          omega
        have hrec := ih (m + 1 - min (l.length - i) (m + 1)) (by omega) _ hd2 hlen2
        rw [GetRleValues]
        simp only [NextNumRepeats, NextNumLiterals, ensure]
        rw [dif_neg (lt_irrefl 0)]
        rw [dif_neg (show ¬ min (l.length - i) (m + 1) = 0 from by omega)]
        simp only [GetLiteralValues]
        rw [if_pos hfit]
        rw [hstate]
        dsimp only
        rw [hrec]
        rw [hsing]
        rw [hmap]

/-- A single per-value read preserves decoder well-formedness. -/
theorem GetSingleValue_wf (d : Dec) (h : DecWF d) : DecWF (GetSingleValue d).2 := by
  have hd' : DecWF (ensure d) := ensure_wf d h
  have hGe : GetSingleValue d = GetSingleValue (ensure d) := by
    rcases d with ⟨w, B, run⟩
    cases run with
    | pend => exact GetSingleValue_pend ⟨w, B, .pend⟩ rfl
    | exhausted => rfl
    | rep rem v => rfl
    | lit rem p bp => rfl
  have hne : (ensure d).run ≠ .pend := by
    rcases d with ⟨w, B, run⟩
    cases run with
    | pend => exact parseHeader_ne_pend ⟨w, B, .pend⟩
    | exhausted => simp [ensure]
    | rep rem v => simp [ensure]
    | lit rem p bp => simp [ensure]
  rw [hGe]
  rcases hE : ensure d with ⟨w, B, run⟩
  rw [hE] at hd' hne
  cases run with
  | pend => exact absurd rfl hne
  | exhausted => rw [GetSingleValue_exhausted]; trivial
  | rep rem v =>
    dsimp only [DecWF] at hd'
    obtain ⟨hrem, hstream⟩ := hd'
    rw [GetSingleValue_rep w B rem v hrem]
    by_cases hc : rem ≤ 1
    · simpa [DecWF, hc] using hstream
    · simp only [DecWF, if_neg hc]
      exact ⟨by omega, hstream⟩
  | lit rem payload bitpos =>
    dsimp only [DecWF] at hd'
    obtain ⟨⟨l, i, hwl, hi, hrem, hpay, hbit⟩, hstream⟩ := hd'
    obtain ⟨hl1, hl2, hl4, hl5⟩ := hwl
    subst hrem; subst hpay; subst hbit
    have hrem1 : 1 ≤ l.length - i := by omega
    have hplen : (litPayload w l).length = l.length / 8 * w := by
      unfold litPayload; exact length_natToBytesLE _ _
    have hb : i * w + w ≤ 8 * (litPayload w l).length := by
      rw [hplen]
      have h8 : 8 * (l.length / 8 * w) = l.length * w := by
        have : 8 * (l.length / 8) = l.length := by omega
        calc 8 * (l.length / 8 * w) = 8 * (l.length / 8) * w := by ring
          _ = l.length * w := by rw [this]
      rw [h8]
      calc i * w + w = (i + 1) * w := by ring
        _ ≤ l.length * w := Nat.mul_le_mul_right w (by omega)
    rw [GetSingleValue_lit w B (l.length - i) (litPayload w l) (i * w) hrem1 hb]
    by_cases hc : l.length - i ≤ 1
    · simpa [DecWF, hc] using hstream
    · simp only [DecWF, if_neg hc]
      exact ⟨⟨l, i + 1, ⟨hl1, hl2, hl4, hl5⟩, by omega, by omega, rfl, by ring⟩, hstream⟩

/-- Iterated per-value reads preserve decoder well-formedness. -/
theorem singles_wf (n : Nat) : ∀ d, DecWF d → DecWF (singles n d).2 := by
  induction n with
  | zero => intro d h; exact h
  | succ m ih =>
    intro d h
    have hg := GetSingleValue_wf d h
    rcases hq : GetSingleValue d with ⟨o, d1⟩
    rw [hq] at hg
    cases o with
    | some v => simp only [singles, hq]; exact ih d1 hg
    | none => simp only [singles, hq]; exact hg

/-- Flushing from any invariant-satisfying encoder state yields fully
well-formed runs when its pending values fit the bit width. -/
theorem flush_wf (w minRun : Nat) (hm32 : minRun ≤ MAX_RUN_LENGTH_BUFFER)
    (e : Enc) (hinv : EncInv minRun e) (hv : ∀ x ∈ encVals e, x < 2 ^ w) :
    ∀ r ∈ FlushRuns e, RunWF w r := by
  obtain ⟨hshape, p, hp, hflat⟩ := flush_spec minRun hm32 e hinv
  have hval : ∀ x ∈ runsValues (FlushRuns e), x < 2 ^ w := by
    intro x hx
    rw [hflat] at hx
    rcases List.mem_append.1 hx with h | h
    · exact hv x h
    · have : x = 0 := List.eq_of_mem_replicate h
      subst this
      exact Nat.pos_pow_of_pos w (by norm_num)
  intro r hr
  have hs := hshape r hr
  cases r with
  | rep n v =>
    obtain ⟨hn1, hn2⟩ := hs
    refine ⟨hn1, hn2, ?_⟩
    apply hval
    apply mem_runValues_of_mem_runs _ _ hr
    simp only [runValues]
    exact List.mem_replicate.2 ⟨by omega, rfl⟩
  | lit l =>
    obtain ⟨hn1, hn2, hn3⟩ := hs
    refine ⟨hn1, hn2, hn3, ?_⟩
    intro x hx
    apply hval
    exact mem_runValues_of_mem_runs _ _ hr x hx

/-- Decoding a flushed encoder state by iterated single reads recovers exactly
its pending values (the padding zeros lie beyond the requested count). -/
theorem flush_singles (w minRun : Nat) (hm32 : minRun ≤ MAX_RUN_LENGTH_BUFFER)
    (e : Enc) (hinv : EncInv minRun e) (hv : ∀ x ∈ encVals e, x < 2 ^ w) :
    (singles (encVals e).length (mkDec (serialize w (FlushRuns e)) w)).1 =
      encVals e := by
  obtain ⟨hshape, p, hp, hflat⟩ := flush_spec minRun hm32 e hinv
  have hwf := flush_wf w minRun hm32 e hinv hv
  have htake := stream_singles_take w (FlushRuns e) hwf (encVals e).length
    (by rw [hflat]; simp)
  rw [show mkDec (serialize w (FlushRuns e)) w =
    ⟨w, serialize w (FlushRuns e), .pend⟩ from rfl, htake, hflat, List.take_left]

/-- Well-formedness of the decoder initialised on a flushed stream. -/
theorem flush_decWF (w minRun : Nat) (hm32 : minRun ≤ MAX_RUN_LENGTH_BUFFER)
    (e : Enc) (hinv : EncInv minRun e) (hv : ∀ x ∈ encVals e, x < 2 ^ w) :
    DecWF (mkDec (serialize w (FlushRuns e)) w) :=
  serialize_streamWF w (FlushRuns e) (flush_wf w minRun hm32 e hinv hv)

/-- The values fed to the raw encoder are exactly its flattened pending
values. -/
theorem encVals_foldl (minRun : Nat) (hm8 : minRun % 8 = 0)
    (hm32 : minRun ≤ MAX_RUN_LENGTH_BUFFER) (vs : List Nat) :
    EncInv minRun (vs.foldl (PutRaw minRun) encInit) ∧
      encVals (vs.foldl (PutRaw minRun) encInit) = vs := by
  obtain ⟨h1, h2⟩ := foldl_putRaw minRun hm8 hm32 vs encInit (encInv_init minRun)
  refine ⟨h1, ?_⟩
  rw [h2]
  have : encVals encInit = [] := by simp [encVals, pendingVals, encInit, runsValues]
  rw [this]
  rfl

/-- End-to-end round trip at the `singles` level. -/
theorem encode_singles (w minRun : Nat) (hm8 : minRun % 8 = 0)
    (hm32 : minRun ≤ MAX_RUN_LENGTH_BUFFER) (vs : List Nat)
    (hv : ∀ x ∈ vs, x < 2 ^ w) :
    (singles vs.length (mkDec (encode w minRun vs) w)).1 = vs := by
  obtain ⟨h1, h2⟩ := encVals_foldl minRun hm8 hm32 vs
  have := flush_singles w minRun hm32 (vs.foldl (PutRaw minRun) encInit) h1
    (by rw [h2]; exact hv)
  rw [h2] at this
  exact this

/-- Well-formedness of the decoder over an encoded stream. -/
theorem encode_decWF (w minRun : Nat) (hm8 : minRun % 8 = 0)
    (hm32 : minRun ≤ MAX_RUN_LENGTH_BUFFER) (vs : List Nat)
    (hv : ∀ x ∈ vs, x < 2 ^ w) :
    DecWF (mkDec (encode w minRun vs) w) := by
  obtain ⟨h1, h2⟩ := encVals_foldl minRun hm8 hm32 vs
  exact flush_decWF w minRun hm32 _ h1 (by rw [h2]; exact hv)

/-- Feeding a sequence through the capacity-checked `Put` keeps the encoder
invariant, and the final state's pending values are exactly the prior ones
followed by the accepted values (which all come from the input). -/
theorem PutList_spec (w minRun bufLen : Nat) (hm8 : minRun % 8 = 0)
    (hm32 : minRun ≤ MAX_RUN_LENGTH_BUFFER) :
    ∀ (vs : List Nat) (e : Enc), EncInv minRun e →
      EncInv minRun (PutList w minRun bufLen e vs).1 ∧
      encVals (PutList w minRun bufLen e vs).1 =
        encVals e ++ (PutList w minRun bufLen e vs).2 ∧
      ∀ x ∈ (PutList w minRun bufLen e vs).2, x ∈ vs := by
  intro vs
  induction vs with
  | nil => intro e he; exact ⟨he, by simp [PutList], by simp [PutList]⟩
  | cons v vs ih =>
    intro e he
    by_cases hc : flushLen w (PutRaw minRun e v) ≤ bufLen
    · have hput : Put w minRun bufLen e v = (true, PutRaw minRun e v) := by
        unfold Put; rw [if_pos hc]
      obtain ⟨ha, hb⟩ := putRaw_spec minRun hm8 hm32 e v he
      obtain ⟨h1, h2, h3⟩ := ih (PutRaw minRun e v) ha
      refine ⟨?_, ?_, ?_⟩
      · simp only [PutList, hput]; exact h1
      · simp only [PutList, hput]
        rw [h2, hb]
        simp
      · simp only [PutList, hput]
        intro x hx
        rcases List.mem_cons.1 hx with h | h
        · exact List.mem_cons.2 (Or.inl h)
        · exact List.mem_cons.2 (Or.inr (h3 x h))
    · have hput : Put w minRun bufLen e v = (false, e) := by
        unfold Put; rw [if_neg hc]
      obtain ⟨h1, h2, h3⟩ := ih e he
      refine ⟨?_, ?_, ?_⟩
      · simp only [PutList, hput]; exact h1
      · simp only [PutList, hput]; exact h2
      · simp only [PutList, hput]
        intro x hx
        exact List.mem_cons.2 (Or.inr (h3 x hx))


theorem legalMinRuns_mem (minRun : Nat) (h : minRun ∈ legalMinRuns) :
    minRun % 8 = 0 ∧ minRun ≤ MAX_RUN_LENGTH_BUFFER := by
  rw [show legalMinRuns = [0, 8, 16, 24, 32] from rfl] at h
  fin_cases h <;> exact ⟨by decide, by decide⟩

/-- The first raw `Put` into a fresh encoder just stages the value. -/
theorem putRaw_init (minRun v : Nat) :
    PutRaw minRun encInit v = ⟨[], [], [], [v], v, 1, false, 0⟩ := by
  by_cases h : v = 0
  · subst h; rfl
  · simp [PutRaw, putTrack, putBuf, putOctet, closeLitIfFull, encInit,
      MAX_VALUES_PER_LITERAL_RUN, h]

/-- Worst-case flush cost of the first value: one literal header byte plus one
packed octet (`w` bytes). -/
theorem flushLen_putRaw_init (w minRun v : Nat) :
    flushLen w (PutRaw minRun encInit v) = 1 + w := by
  rw [putRaw_init]
  have hF : FlushRuns ⟨[], [], [], [v], v, 1, false, 0⟩ =
      [.lit ([v] ++ List.replicate 7 0)] := by
    simp [FlushRuns]
  show (serialize w (FlushRuns ⟨[], [], [], [v], v, 1, false, 0⟩)).length = 1 + w
  rw [hF]
  simp [serialize, serializeRun, litPayload,
    show ulebEncode 3 = [3] by decide]
  omega

theorem GetValues_zero (d : Dec) : GetValues 0 d = ([], d) := by rw [GetValues]

theorem flushLen_encInit (w : Nat) : flushLen w encInit = 0 := rfl

/-- The capacity-checked encoder never ends in a state whose flush exceeds the
buffer. -/
theorem PutList_flushLen (w minRun bufLen : Nat) :
    ∀ (vs : List Nat) (e : Enc), flushLen w e ≤ bufLen →
      flushLen w (PutList w minRun bufLen e vs).1 ≤ bufLen := by
  intro vs
  induction vs with
  | nil => intro e he; simpa [PutList] using he
  | cons v vs ih =>
    intro e he
    by_cases hc : flushLen w (PutRaw minRun e v) ≤ bufLen
    · have hput : Put w minRun bufLen e v = (true, PutRaw minRun e v) := by
        unfold Put; rw [if_pos hc]
      simp only [PutList, hput]
      exact ih (PutRaw minRun e v) hc
    · have hput : Put w minRun bufLen e v = (false, e) := by
        unfold Put; rw [if_neg hc]
      simp only [PutList, hput]
      exact ih e he


/-! ## The claims -/

/-- C1: Round trip — for every bit width `W ∈ [0, 64]`, every
`min_repeated_run_length ∈ {0, 8, 16, 24, 32}` and every finite sequence `V`
of values in `[0, 2^W)`, encoding `V` with `Put` followed by `Flush` and
decoding the produced bytes with the batched reader yields exactly `V`, in
order. -/
theorem c1_round_trip (w minRun : Nat) (vs : List Nat) (hw : w ≤ 64)
    (hm : minRun ∈ legalMinRuns) (hv : ∀ x ∈ vs, x < 2 ^ w) :
    (GetValues vs.length (mkDec (encode w minRun vs) w)).1 = vs := by
  obtain ⟨hm8, hm32⟩ := legalMinRuns_mem minRun hm
  rw [GetValues_eq_singles vs.length _ (encode_decWF w minRun hm8 hm32 vs hv)]
  exact encode_singles w minRun hm8 hm32 vs hv

theorem c1_round_trip_witness :
    (1 : Nat) ≤ 64 ∧ 8 ∈ legalMinRuns ∧ (∀ x ∈ [1, 0, 1], x < 2 ^ 1) ∧
    (GetValues [1, 0, 1].length (mkDec (encode 1 8 [1, 0, 1]) 1)).1 = [1, 0, 1] :=
  ⟨by decide, by decide, by decide,
    c1_round_trip 1 8 [1, 0, 1] (by decide) (by decide) (by decide)⟩

/-- C2: Malformed zero-count header — when the next run header ULEB128-decodes
to a value whose count field is 0 (header `0` read as a repeated run, header
`1` read as a literal run), the decoder refuses to produce values:
`NextNumRepeats` and `NextNumLiterals` both answer 0 and move to the
EXHAUSTED state, and EXHAUSTED is sticky — on it every later `NextNumRepeats`,
`NextNumLiterals` and `GetSingleValue` answers 0/`none` without a state
change. -/
theorem c2_zero_header_sticky (w : Nat) (B rest : List Nat) (h : Nat)
    (hdec : ulebDecode 5 B = some (h, rest)) (hh : h ≤ 1) :
    NextNumRepeats (mkDec B w) = (0, ⟨w, B, .exhausted⟩) ∧
    NextNumLiterals (mkDec B w) = (0, ⟨w, B, .exhausted⟩) ∧
    ∀ d : Dec, d.run = .exhausted →
      NextNumRepeats d = (0, d) ∧ NextNumLiterals d = (0, d) ∧
      GetSingleValue d = (none, d) := by
  have hp : parseHeader (mkDec B w) = ⟨w, B, .exhausted⟩ := by
    unfold parseHeader mkDec
    dsimp only
    rw [hdec]
    interval_cases h <;> norm_num
  have he : ensure (mkDec B w) = ⟨w, B, .exhausted⟩ := by
    rw [show ensure (mkDec B w) = parseHeader (mkDec B w) from rfl, hp]
  refine ⟨?_, ?_, ?_⟩
  · unfold NextNumRepeats; rw [he]
  · unfold NextNumLiterals; rw [he]
  · intro d hd
    rcases d with ⟨w2, B2, run2⟩
    dsimp only at hd
    subst hd
    exact ⟨rfl, rfl, rfl⟩

theorem c2_zero_header_sticky_witness :
    ulebDecode 5 [0] = some (0, []) ∧ (0 : Nat) ≤ 1 ∧
    (NextNumRepeats (mkDec [0] 1) = (0, ⟨1, [0], .exhausted⟩) ∧
     NextNumLiterals (mkDec [0] 1) = (0, ⟨1, [0], .exhausted⟩) ∧
     ∀ d : Dec, d.run = .exhausted →
       NextNumRepeats d = (0, d) ∧ NextNumLiterals d = (0, d) ∧
       GetSingleValue d = (none, d)) :=
  ⟨by decide, by decide, c2_zero_header_sticky 1 [0] [] 0 (by decide) (by decide)⟩

/-- C3 (counterexample): the ULEB128 header `0xFFFFFFFE` has low bit 0, so the
decoder reads it as a *repeated* run, not a literal one — `NextNumRepeats`
answers `0x7FFFFFFF`, not the 0 the claim's literal-run row asserts. -/
theorem c3_counterexample :
    4294967294 % 2 = 0 ∧
    (NextNumRepeats (mkDec (ulebEncode 4294967294 ++ [0]) 1)).1 = 2147483647 ∧
    ¬ (NextNumRepeats (mkDec (ulebEncode 4294967294 ++ [0]) 1)).1 = 0 := by
  decide

/-- C3 (amended): with `W = 1`, the ULEB128 header `0xFFFFFFFF` — the literal
run whose value count `8·G` overflows a signed 32-bit integer — yields
`next_num_repeats = 0`, `next_num_literals = 0` and `get_values(1, ·) = 0`;
the ULEB128 header `0xFFFFFFFE` is a *repeated* run over an all-zero payload
and yields `next_num_repeats = 0x7FFFFFFF` and `get_values(1, ·) = 1`
producing the value 0. -/
theorem c3_header_overflow :
    (NextNumRepeats (mkDec (ulebEncode 4294967295) 1)).1 = 0 ∧
    (NextNumLiterals (mkDec (ulebEncode 4294967295) 1)).1 = 0 ∧
    (GetValues 1 (mkDec (ulebEncode 4294967295) 1)).1 = [] ∧
    (NextNumRepeats (mkDec (ulebEncode 4294967294 ++ [0]) 1)).1 = 2147483647 ∧
    (GetValues 1 (mkDec (ulebEncode 4294967294 ++ [0]) 1)).1 = [0] := by
  have hp1 : parseHeader (mkDec (ulebEncode 4294967295) 1) =
      ⟨1, ulebEncode 4294967295, .exhausted⟩ := by decide
  have hp2 : parseHeader (mkDec (ulebEncode 4294967294 ++ [0]) 1) =
      ⟨1, [], .rep 2147483647 0⟩ := by decide
  refine ⟨by decide, by decide, ?_, by decide, ?_⟩
  · rw [GetValues_pend 0 _ rfl, hp1, GetValues_exhausted]
  · rw [GetValues_pend 0 _ rfl, hp2,
      GetValues_rep 0 1 [] 2147483647 0 (by norm_num)]
    norm_num [GetValues_zero]

/-- C4: Buffer-full semantics of `Put` — `Put` answers `false` exactly when
the stream a flush would emit after accepting the value exceeds the buffer
capacity; on `false` the encoder state is unchanged; and flushing after any
mix of accepted and refused `Put`s produces a byte stream that decodes to
exactly the accepted values, in order. -/
theorem c4_put_buffer_full (w minRun bufLen : Nat) (hm : minRun ∈ legalMinRuns)
    (e : Enc) (hinv : EncInv minRun e) (v : Nat) :
    ((Put w minRun bufLen e v).1 = false ↔
      bufLen < flushLen w (PutRaw minRun e v)) ∧
    ((Put w minRun bufLen e v).1 = false → (Put w minRun bufLen e v).2 = e) ∧
    ∀ vs : List Nat, (∀ x ∈ vs, x < 2 ^ w) →
      (GetValues (PutList w minRun bufLen encInit vs).2.length
        (mkDec (serialize w (FlushRuns (PutList w minRun bufLen encInit vs).1)) w)).1 =
      (PutList w minRun bufLen encInit vs).2 := by
  obtain ⟨hm8, hm32⟩ := legalMinRuns_mem minRun hm
  refine ⟨?_, ?_, ?_⟩
  · unfold Put
    by_cases hc : flushLen w (PutRaw minRun e v) ≤ bufLen
    · simp only [if_pos hc]
      constructor
      · intro hf; exact absurd hf (by simp)
      · intro hlt; exact absurd hlt (by omega)
    · simp only [if_neg hc]
      constructor
      · intro _; omega
      · intro _; trivial
  · unfold Put
    by_cases hc : flushLen w (PutRaw minRun e v) ≤ bufLen
    · simp [hc]
    · simp [hc]
  · intro vs hv
    obtain ⟨h1, h2, h3⟩ :=
      PutList_spec w minRun bufLen hm8 hm32 vs encInit (encInv_init minRun)
    have hnil : encVals encInit = [] := by
      simp [encVals, pendingVals, encInit, runsValues]
    rw [hnil, List.nil_append] at h2
    have hvst : ∀ x ∈ encVals (PutList w minRun bufLen encInit vs).1, x < 2 ^ w := by
      rw [h2]; intro x hx; exact hv x (h3 x hx)
    have hdec := flush_singles w minRun hm32 _ h1 hvst
    rw [h2] at hdec
    rw [GetValues_eq_singles _ _ (flush_decWF w minRun hm32 _ h1 hvst)]
    exact hdec

theorem c4_put_buffer_full_witness :
    8 ∈ legalMinRuns ∧
    (((Put 1 8 0 encInit 1).1 = false ↔
        (0 : Nat) < flushLen 1 (PutRaw 8 encInit 1)) ∧
     ((Put 1 8 0 encInit 1).1 = false → (Put 1 8 0 encInit 1).2 = encInit) ∧
     ∀ vs : List Nat, (∀ x ∈ vs, x < 2 ^ 1) →
       (GetValues (PutList 1 8 0 encInit vs).2.length
         (mkDec (serialize 1 (FlushRuns (PutList 1 8 0 encInit vs).1)) 1)).1 =
       (PutList 1 8 0 encInit vs).2) :=
  ⟨by decide, c4_put_buffer_full 1 8 0 (by decide) encInit (encInv_init 8) 1⟩

/-- C5: Bulk/single/per-run equivalence — on every well-formed encoded buffer
the batched `GetValues`, the iterated `GetSingleValue` and the per-run test
loop produce identical outputs: `GetValues n` equals `singles n` for every
`n`, `SkipValues n` counts exactly the values `singles n` yields, and when
`n` values are available the per-run loop succeeds with exactly the values of
`singles n`, in the same final state. -/
theorem c5_decode_paths (w : Nat) (rs : List Run) (hwf : ∀ r ∈ rs, RunWF w r)
    (n : Nat) :
    GetValues n (mkDec (serialize w rs) w) = singles n (mkDec (serialize w rs) w) ∧
    SkipValues n (mkDec (serialize w rs) w) =
      ((singles n (mkDec (serialize w rs) w)).1.length,
       (singles n (mkDec (serialize w rs) w)).2) ∧
    (n ≤ (runsValues rs).length →
      GetRleValues n (mkDec (serialize w rs) w) =
        (some (singles n (mkDec (serialize w rs) w)).1,
         (singles n (mkDec (serialize w rs) w)).2)) := by
  have hd : DecWF (mkDec (serialize w rs) w) := serialize_streamWF w rs hwf
  refine ⟨GetValues_eq_singles n _ hd, SkipValues_eq_singles n _ hd, fun hn => ?_⟩
  apply GetRleValues_eq_singles n _ hd
  rw [show mkDec (serialize w rs) w = ⟨w, serialize w rs, .pend⟩ from rfl,
    stream_singles_take w rs hwf n hn, List.length_take]
  omega

theorem c5_decode_paths_witness :
    (∀ r ∈ [Run.rep 3 1], RunWF 1 r) ∧
    (GetValues 2 (mkDec (serialize 1 [Run.rep 3 1]) 1) =
       singles 2 (mkDec (serialize 1 [Run.rep 3 1]) 1) ∧
     SkipValues 2 (mkDec (serialize 1 [Run.rep 3 1]) 1) =
       ((singles 2 (mkDec (serialize 1 [Run.rep 3 1]) 1)).1.length,
        (singles 2 (mkDec (serialize 1 [Run.rep 3 1]) 1)).2) ∧
     (2 ≤ (runsValues [Run.rep 3 1]).length →
       GetRleValues 2 (mkDec (serialize 1 [Run.rep 3 1]) 1) =
         (some (singles 2 (mkDec (serialize 1 [Run.rep 3 1]) 1)).1,
          (singles 2 (mkDec (serialize 1 [Run.rep 3 1]) 1)).2))) := by
  have hwf : ∀ r ∈ [Run.rep 3 1], RunWF 1 r := by
    intro r hr
    rw [List.mem_singleton] at hr
    subst hr
    exact ⟨by decide, by decide, by decide⟩
  exact ⟨hwf, c5_decode_paths 1 [Run.rep 3 1] hwf 2⟩


/-- C6: Skip equivalence — for every split `V = A ++ S ++ B` of an encoded
value sequence, reading `|A|` values, skipping `|S|` (which reports `|S|`),
then reading `|B|` values yields exactly `A` and then `B`. -/
theorem c6_skip_equivalence (w minRun : Nat) (hm : minRun ∈ legalMinRuns)
    (A S B : List Nat) (hv : ∀ x ∈ A ++ S ++ B, x < 2 ^ w) :
    (GetValues A.length (mkDec (encode w minRun (A ++ S ++ B)) w)).1 = A ∧
    (SkipValues S.length
      (GetValues A.length (mkDec (encode w minRun (A ++ S ++ B)) w)).2).1 =
      S.length ∧
    (GetValues B.length
      (SkipValues S.length
        (GetValues A.length (mkDec (encode w minRun (A ++ S ++ B)) w)).2).2).1 = B := by
  obtain ⟨hm8, hm32⟩ := legalMinRuns_mem minRun hm
  have hd0 : DecWF (mkDec (encode w minRun (A ++ S ++ B)) w) :=
    encode_decWF w minRun hm8 hm32 _ hv
  have htot : (singles (A ++ S ++ B).length
      (mkDec (encode w minRun (A ++ S ++ B)) w)).1 = A ++ S ++ B :=
    encode_singles w minRun hm8 hm32 _ hv
  set d0 := mkDec (encode w minRun (A ++ S ++ B)) w with hd0eq
  have hlen3 : (A ++ S ++ B).length = A.length + (S.length + B.length) := by
    simp [List.length_append]
  rw [hlen3] at htot
  have h1 : (singles (A.length + (S.length + B.length)) d0).1 =
      (singles A.length d0).1 ++
        (singles (S.length + B.length) (singles A.length d0).2).1 :=
    congrArg Prod.fst (singles_add A.length (S.length + B.length) d0)
  rw [htot] at h1
  have hX' : (singles A.length d0).1 ++
      (singles (S.length + B.length) (singles A.length d0).2).1 =
      A ++ (S ++ B) := by
    rw [← h1, List.append_assoc]
  have hl1 : (singles A.length d0).1.length ≤ A.length := singles_length_le _ _
  have hl23 : (singles (S.length + B.length) (singles A.length d0).2).1.length ≤
      S.length + B.length := singles_length_le _ _
  have hXlen := congrArg List.length hX'
  simp only [List.length_append] at hXlen
  have hX1len : (singles A.length d0).1.length = A.length := by omega
  obtain ⟨hA, hSB⟩ := List.append_inj hX' hX1len
  have hd1 : DecWF (singles A.length d0).2 := singles_wf A.length d0 hd0
  have h2 : (singles (S.length + B.length) (singles A.length d0).2).1 =
      (singles S.length (singles A.length d0).2).1 ++
        (singles B.length (singles S.length (singles A.length d0).2).2).1 :=
    congrArg Prod.fst (singles_add S.length B.length (singles A.length d0).2)
  have hX2' : (singles S.length (singles A.length d0).2).1 ++
      (singles B.length (singles S.length (singles A.length d0).2).2).1 =
      S ++ B := by rw [← h2, hSB]
  have hl2 : (singles S.length (singles A.length d0).2).1.length ≤ S.length :=
    singles_length_le _ _
  have hl3 : (singles B.length
      (singles S.length (singles A.length d0).2).2).1.length ≤ B.length :=
    singles_length_le _ _
  have hX2len2 := congrArg List.length hX2'
  simp only [List.length_append] at hX2len2
  have hX2len : (singles S.length (singles A.length d0).2).1.length = S.length := by
    omega
  obtain ⟨hS, hB⟩ := List.append_inj hX2' hX2len
  have hd2 : DecWF (singles S.length (singles A.length d0).2).2 :=
    singles_wf S.length _ hd1
  refine ⟨?_, ?_, ?_⟩
  · rw [GetValues_eq_singles A.length d0 hd0]
    exact hA
  · rw [GetValues_eq_singles A.length d0 hd0,
      SkipValues_eq_singles S.length _ hd1]
    exact hX2len
  · rw [GetValues_eq_singles A.length d0 hd0,
      SkipValues_eq_singles S.length _ hd1]
    show (GetValues B.length (singles S.length (singles A.length d0).2).2).1 = B
    rw [GetValues_eq_singles B.length _ hd2]
    exact hB

theorem c6_skip_equivalence_witness :
    8 ∈ legalMinRuns ∧ (∀ x ∈ [1] ++ [0, 0] ++ [1], x < 2 ^ 1) ∧
    ((GetValues [1].length (mkDec (encode 1 8 ([1] ++ [0, 0] ++ [1])) 1)).1 = [1] ∧
     (SkipValues [0, 0].length
       (GetValues [1].length (mkDec (encode 1 8 ([1] ++ [0, 0] ++ [1])) 1)).2).1 =
       [0, 0].length ∧
     (GetValues [1].length
       (SkipValues [0, 0].length
         (GetValues [1].length
           (mkDec (encode 1 8 ([1] ++ [0, 0] ++ [1])) 1)).2).2).1 = [1]) :=
  ⟨by decide, by decide,
    c6_skip_equivalence 1 8 (by decide) [1] [0, 0] [1] (by decide)⟩

set_option maxRecDepth 10000 in
/-- C7: Byte-exact framing of the two worked examples — with `W = 1` and any
legal `min_repeated_run_length`, 50 zeros then 50 ones encode to exactly
`[0x64, 0x00, 0x64, 0x01]`, and 100 alternating bits `0,1,0,1,…` encode to
exactly the header `0x1B`, twelve `0xAA` bytes and the zero-padded tail byte
`0x0A`. -/
theorem c7_byte_exact (minRun : Nat) (hm : minRun ∈ legalMinRuns) :
    encode 1 minRun (List.replicate 50 0 ++ List.replicate 50 1) =
      [0x64, 0x00, 0x64, 0x01] ∧
    encode 1 minRun ((List.range 100).map (fun i => i % 2)) =
      0x1B :: (List.replicate 12 0xAA ++ [0x0A]) := by
  rw [show legalMinRuns = [0, 8, 16, 24, 32] from rfl] at hm
  fin_cases hm <;> exact ⟨by decide, by decide⟩

set_option maxRecDepth 10000 in
theorem c7_byte_exact_witness :
    8 ∈ legalMinRuns ∧
    (encode 1 8 (List.replicate 50 0 ++ List.replicate 50 1) =
       [0x64, 0x00, 0x64, 0x01] ∧
     encode 1 8 ((List.range 100).map (fun i => i % 2)) =
       0x1B :: (List.replicate 12 0xAA ++ [0x0A])) :=
  ⟨by decide, c7_byte_exact 8 (by decide)⟩


/-- C8 (counterexample): at `W = 0` a literal run's payload occupies *zero*
bytes, not `G` bytes — the 4-group literal run of 32 zero values serializes
to the single header byte `[9]` with an empty payload, and that one-byte
buffer decodes to all 32 zeros. -/
theorem c8_counterexample :
    litPayload 0 (List.replicate 32 0) = [] ∧
    ¬ litPayload 0 (List.replicate 32 0) = List.replicate 4 0 ∧
    serializeRun 0 (.lit (List.replicate 32 0)) = [9] ∧
    (singles 32 (mkDec [9] 0)).1 = List.replicate 32 0 := by
  decide

/-- C8 (amended): `W = 0` is a first-class width — both run kinds are legal,
every decoded value is 0, and the payload occupies zero bytes for repeated
*and* literal runs: a repeated-run header with count `N` yields exactly `N`
zeros and then exhaustion, a literal-run header with `G` groups yields
exactly `8·G` zeros and then exhaustion. -/
theorem c8_width_zero (N G : Nat) (hN1 : 1 ≤ N) (hN2 : N ≤ INT32MAX)
    (hG1 : 1 ≤ G) (hG2 : 8 * G ≤ INT32MAX) :
    serializeRun 0 (.rep N 0) = ulebEncode (2 * N) ∧
    litPayload 0 (List.replicate (8 * G) 0) = [] ∧
    serializeRun 0 (.lit (List.replicate (8 * G) 0)) = ulebEncode (2 * G + 1) ∧
    singles N (mkDec (serializeRun 0 (.rep N 0)) 0) =
      (List.replicate N 0, ⟨0, [], .pend⟩) ∧
    (singles (N + 1) (mkDec (serializeRun 0 (.rep N 0)) 0)).1 =
      List.replicate N 0 ∧
    singles (8 * G) (mkDec (serializeRun 0 (.lit (List.replicate (8 * G) 0))) 0) =
      (List.replicate (8 * G) 0, ⟨0, [], .pend⟩) ∧
    (singles (8 * G + 1)
      (mkDec (serializeRun 0 (.lit (List.replicate (8 * G) 0))) 0)).1 =
      List.replicate (8 * G) 0 := by
  have hG8 : 8 * G / 8 = G := Nat.mul_div_cancel_left G (by norm_num)
  have hser1 : serializeRun 0 (Run.rep N 0) = ulebEncode (2 * N) := by
    simp [serializeRun, byteWidth, natToBytesLE]
  have hpay : litPayload 0 (List.replicate (8 * G) 0) = [] := by
    unfold litPayload
    simp [natToBytesLE]
  have hser2 : serializeRun 0 (Run.lit (List.replicate (8 * G) 0)) =
      ulebEncode (2 * G + 1) := by
    simp only [serializeRun]
    rw [hpay, List.append_nil, List.length_replicate, hG8]
  have hwf1 : ∀ r ∈ [Run.rep N 0], RunWF 0 r := by
    intro r hr
    rw [List.mem_singleton] at hr
    subst hr
    exact ⟨hN1, hN2, by norm_num⟩
  have hwf2 : ∀ r ∈ [Run.lit (List.replicate (8 * G) 0)], RunWF 0 r := by
    intro r hr
    rw [List.mem_singleton] at hr
    subst hr
    refine ⟨?_, ?_, ?_, ?_⟩
    · intro hnil
      have := congrArg List.length hnil
      simp at this
      omega
    · simp
    · simp; omega
    · intro x hx
      rw [List.eq_of_mem_replicate hx]
      norm_num
  have hmain1 := stream_singles 0 [Run.rep N 0] hwf1
  rw [show runsValues [Run.rep N 0] = List.replicate N 0 by
      simp [runsValues, runValues],
    List.length_replicate,
    show serialize 0 [Run.rep N 0] = serializeRun 0 (Run.rep N 0) by simp]
    at hmain1
  have hm1 : singles N (mkDec (serializeRun 0 (Run.rep N 0)) 0) =
      (List.replicate N 0, ⟨0, [], .pend⟩) := hmain1
  have hmain2 := stream_singles 0 [Run.lit (List.replicate (8 * G) 0)] hwf2
  rw [show runsValues [Run.lit (List.replicate (8 * G) 0)] =
        List.replicate (8 * G) 0 by simp [runsValues, runValues],
    List.length_replicate,
    show serialize 0 [Run.lit (List.replicate (8 * G) 0)] =
        serializeRun 0 (Run.lit (List.replicate (8 * G) 0)) by simp]
    at hmain2
  have hm2 : singles (8 * G) (mkDec (serializeRun 0 (Run.lit (List.replicate (8 * G) 0))) 0) =
      (List.replicate (8 * G) 0, ⟨0, [], .pend⟩) := hmain2
  have hend : singles 1 (⟨0, [], .pend⟩ : Dec) = ([], ⟨0, [], .exhausted⟩) := by
    decide
  refine ⟨hser1, hpay, hser2, hm1, ?_, hm2, ?_⟩
  · rw [singles_add N 1, hm1]
    dsimp only
    rw [hend]
    simp
  · rw [singles_add (8 * G) 1, hm2]
    dsimp only
    rw [hend]
    simp

theorem c8_width_zero_witness :
    (1 : Nat) ≤ 3 ∧ (3 : Nat) ≤ INT32MAX ∧ (1 : Nat) ≤ 1 ∧ 8 * 1 ≤ INT32MAX ∧
    (serializeRun 0 (.rep 3 0) = ulebEncode (2 * 3) ∧
     litPayload 0 (List.replicate (8 * 1) 0) = [] ∧
     serializeRun 0 (.lit (List.replicate (8 * 1) 0)) = ulebEncode (2 * 1 + 1) ∧
     singles 3 (mkDec (serializeRun 0 (.rep 3 0)) 0) =
       (List.replicate 3 0, ⟨0, [], .pend⟩) ∧
     (singles (3 + 1) (mkDec (serializeRun 0 (.rep 3 0)) 0)).1 =
       List.replicate 3 0 ∧
     singles (8 * 1) (mkDec (serializeRun 0 (.lit (List.replicate (8 * 1) 0))) 0) =
       (List.replicate (8 * 1) 0, ⟨0, [], .pend⟩) ∧
     (singles (8 * 1 + 1)
       (mkDec (serializeRun 0 (.lit (List.replicate (8 * 1) 0))) 0)).1 =
       List.replicate (8 * 1) 0) :=
  ⟨by decide, by decide, by decide, by decide,
    c8_width_zero 3 1 (by decide) (by decide) (by decide) (by decide)⟩

/-- The test harness's `MakeSequence(·, a, k, b)` at bit width 1: `a`
alternating bits, `k` ones, `b` alternating bits. -/
def MakeSequence (a k b : Nat) : List Nat :=
  (List.range a).map (fun i => i % 2) ++ List.replicate k 1 ++
    (List.range b).map (fun i => i % 2)

set_option maxRecDepth 20000 in
/-- C9: Encoded-length regression — for the `W = 1` sequence of 32
alternating values, `k` ones, and 32 alternating values, the encoded length
is 12 bytes for `min_run = 8` with `k ∈ {8, 16, 24, 32}`; for `min_run = 16`
it is 10 bytes when `k = 8` (the run of 8 ones folds into one literal run)
and 12 bytes when `k ∈ {16, 24, 32}`. -/
theorem c9_output_lengths :
    (encode 1 8 (MakeSequence 32 8 32)).length = 12 ∧
    (encode 1 8 (MakeSequence 32 16 32)).length = 12 ∧
    (encode 1 8 (MakeSequence 32 24 32)).length = 12 ∧
    (encode 1 8 (MakeSequence 32 32 32)).length = 12 ∧
    (encode 1 16 (MakeSequence 32 8 32)).length = 10 ∧
    (encode 1 16 (MakeSequence 32 16 32)).length = 12 ∧
    (encode 1 16 (MakeSequence 32 24 32)).length = 12 ∧
    (encode 1 16 (MakeSequence 32 32 32)).length = 12 := by
  decide

/-- C10: Implicit buffer-size safety — for every `W ∈ [1, 32]` and legal
`min_repeated_run_length`, an encoder over a buffer of at least
`MinBufferSize W` bytes accepts its first `Put`, and the flush length of the
capacity-checked encoder never exceeds the buffer length. -/
theorem c10_min_buffer_size (w minRun bufLen : Nat) (hw1 : 1 ≤ w)
    (hw2 : w ≤ 32) (hm : minRun ∈ legalMinRuns)
    (hbuf : MinBufferSize w ≤ bufLen) (v : Nat) :
    (Put w minRun bufLen encInit v).1 = true ∧
    ∀ vs : List Nat, flushLen w (PutList w minRun bufLen encInit vs).1 ≤ bufLen := by
  constructor
  · have hcap : flushLen w (PutRaw minRun encInit v) ≤ bufLen := by
      rw [flushLen_putRaw_init]
      unfold MinBufferSize byteWidth at hbuf
      omega
    unfold Put
    rw [if_pos hcap]
  · intro vs
    exact PutList_flushLen w minRun bufLen vs encInit
      (by rw [flushLen_encInit]; omega)

theorem c10_min_buffer_size_witness :
    (1 : Nat) ≤ 1 ∧ (1 : Nat) ≤ 32 ∧ 0 ∈ legalMinRuns ∧ MinBufferSize 1 ≤ 4 ∧
    ((Put 1 0 4 encInit 1).1 = true ∧
     ∀ vs : List Nat, flushLen 1 (PutList 1 0 4 encInit vs).1 ≤ 4) :=
  ⟨by decide, by decide, by decide, by decide,
    c10_min_buffer_size 1 0 4 (by decide) (by decide) (by decide) (by decide) 1⟩

end Rle
